import Mathlib

/-!
Shallow embedding of the pairing core of the Chess-Tournament-Manager
repository, and proofs about the claims of its specification.

Sources embedded:
  * `src/models/tournament.py` — `Result`, `Pairing`, `Round`, `Tournament`,
    `get_player_score`, `get_player_opponents`, `finish_tournament`,
    `add_round`.
  * `src/controllers/pairing.py` — `SwissPairingStrategy`,
    `RoundRobinPairingStrategy`, `KnockoutPairingStrategy`,
    `generate_pairings` (module-level entry point).
  * `src/controllers/tournament.py` — `update_result`.

Modelling conventions, applied uniformly:
  * Player ids are opaque values (`PlayerId := Nat`).  In the source they are
    UUID strings, which are always non-empty, so Python truthiness tests on
    an optional player id (`if player_id:`) are modelled as `Option.isSome`.
  * Python `float` scores are modelled as `Rat`.  Every score the program
    produces is a multiple of 1/2, where float arithmetic is exact, so the
    two are in exact agreement.
  * Calls of `random.random()` are modelled by a draw stream `rng : Nat → Rat`
    together with an index that advances by one at each call, mirroring the
    order in which the source consumes the global generator.
  * `Player.load(...).rating or 0` lookups are modelled by a total function
    `ratingOf : PlayerId → Int` (a missing player record yields 0 in the
    source; `ratingOf` simply maps every id to the rating the lookup returns).
  * `datetime.now().isoformat()` timestamps are threaded in as a `now : String`
    parameter.
  * Code that raises (`KnockoutPairingStrategy` for a missing previous round)
    returns `Except String Round`; the enclosing `try/except` is the
    `Except`-match in `generatePairingsOp`.
-/

abbrev PlayerId := Nat

/-- `Result` enum of `src/models/tournament.py`.  The Python aliases
`PLAYER1_WIN`/`PLAYER2_WIN`/`NOT_PLAYED` carry the same values as
`WHITE_WIN`/`BLACK_WIN`/`ONGOING` and are the same enum members, so they are
not separate constructors. -/
inductive Result where
  | WHITE_WIN
  | BLACK_WIN
  | DRAW
  | FORFEIT_WHITE
  | FORFEIT_BLACK
  | DOUBLE_FORFEIT
  | ONGOING
  deriving DecidableEq, Repr

/-- The canonical string token of each `Result` member (the Python enum value). -/
def Result.value : Result → String
  | .WHITE_WIN => "1-0"
  | .BLACK_WIN => "0-1"
  | .DRAW => "1/2-1/2"
  | .FORFEIT_WHITE => "1-0F"
  | .FORFEIT_BLACK => "0-1F"
  | .DOUBLE_FORFEIT => "0-0F"
  | .ONGOING => "*"

/-- Python `Result(value)`: look the member up by its string value; a string
that is no member's value raises `ValueError`, modelled as `none`. -/
def Result.ofValue : String → Option Result
  | "1-0" => some .WHITE_WIN
  | "0-1" => some .BLACK_WIN
  | "1/2-1/2" => some .DRAW
  | "1-0F" => some .FORFEIT_WHITE
  | "0-1F" => some .FORFEIT_BLACK
  | "0-0F" => some .DOUBLE_FORFEIT
  | "*" => some .ONGOING
  | _ => none

/-- `Pairing` of `src/models/tournament.py`. -/
structure Pairing where
  white_id : Option PlayerId
  black_id : Option PlayerId
  board_number : Option Nat
  result : Result
  deriving DecidableEq, Repr

/-- `Round` of `src/models/tournament.py`. -/
structure Round where
  number : Nat
  pairings : List Pairing
  start_time : Option String
  end_time : Option String
  deriving DecidableEq, Repr

/-- `TournamentType` enum of `src/models/tournament.py`. -/
inductive TournamentType where
  | SWISS
  | ROUND_ROBIN
  | KNOCKOUT
  deriving DecidableEq, Repr

/-- `Tournament` of `src/models/tournament.py` (the fields the pairing core
reads or writes; `tournament_id` and `created_at` are opaque strings fixed at
creation and are kept for completeness). -/
structure Tournament where
  tournament_id : String
  name : String
  tournament_type : TournamentType
  num_rounds : Nat
  location : String
  start_date : String
  end_date : Option String
  description : String
  created_at : String
  updated_at : String
  players : List PlayerId
  rounds : List Round
  current_round : Nat
  is_finished : Bool
  deriving DecidableEq, Repr

/-- One pairing's contribution to `Tournament.get_player_score` for `pid`
(the body of the nested loop at `src/models/tournament.py:255-265`). -/
def pairingScore (pid : PlayerId) (p : Pairing) : Rat :=
  if p.white_id = some pid then
    if p.result = Result.WHITE_WIN ∨ p.result = Result.FORFEIT_WHITE then 1
    else if p.result = Result.DRAW then 1/2
    else 0
  else if p.black_id = some pid then
    if p.result = Result.BLACK_WIN ∨ p.result = Result.FORFEIT_BLACK then 1
    else if p.result = Result.DRAW then 1/2
    else 0
  else 0

/-- One round's contribution to `Tournament.get_player_score` for `pid`. -/
def roundScore (pid : PlayerId) (r : Round) : Rat :=
  (r.pairings.map (pairingScore pid)).sum

/-- `Tournament.get_player_score` (`src/models/tournament.py:251-266`). -/
def get_player_score (t : Tournament) (pid : PlayerId) : Rat :=
  (t.rounds.map (roundScore pid)).sum

/-- `Tournament.get_player_opponents` (`src/models/tournament.py:285-294`). -/
def get_player_opponents (t : Tournament) (pid : PlayerId) : List PlayerId :=
  t.rounds.flatMap (fun r =>
    r.pairings.filterMap (fun p =>
      if p.white_id = some pid ∧ p.black_id.isSome then p.black_id
      else if p.black_id = some pid ∧ p.white_id.isSome then p.white_id
      else none))

/-- The set (modelled as a list; only membership is used) of players who have
ever received a bye, per the scan at `src/controllers/pairing.py:62-68`. -/
def playersWithByes (t : Tournament) : List PlayerId :=
  t.rounds.flatMap (fun r =>
    r.pairings.filterMap (fun p =>
      if p.white_id.isSome ∧ ¬ p.black_id.isSome then p.white_id
      else if p.black_id.isSome ∧ ¬ p.white_id.isSome then p.black_id
      else none))

/-- The player ids a single pairing mentions (white first, then black). -/
def mentionList (p : Pairing) : List PlayerId :=
  p.white_id.toList ++ p.black_id.toList

/-- All player ids mentioned by a round, whether as white or black, in
pairing order. -/
def mentionedIds (r : Round) : List PlayerId :=
  r.pairings.flatMap mentionList

/-- Number of real (two-sided) pairings of a round. -/
def realCount (r : Round) : Nat :=
  (r.pairings.filter (fun p => p.black_id.isSome)).length

/-- Number of bye pairings (absent `black_id`) of a round. -/
def byeCount (r : Round) : Nat :=
  (r.pairings.filter (fun p => ¬ p.black_id.isSome)).length

/-- `Tournament.finish_tournament` (`src/models/tournament.py:240-244`):
unconditionally sets `is_finished`, stamps `end_date` with the current time,
and saves (which stamps `updated_at`, `src/models/tournament.py:178`). -/
def finish_tournament (t : Tournament) (now : String) : Tournament :=
  { t with is_finished := true, end_date := some now, updated_at := now }

/-- Board renumbering applied at the end of every strategy
(`src/controllers/pairing.py:161-164`, `238-241`, `364-367`): the real
pairings receive the dense numbers `k, k+1, …` in list order, byes are left
untouched. -/
def renumberBoards : List Pairing → Nat → List Pairing
  | [], _ => []
  | p :: rest, k =>
    if p.black_id.isSome then
      { p with board_number := some k } :: renumberBoards rest (k + 1)
    else
      p :: renumberBoards rest k

/-- Python stable sort of `(id, score)` pairs by score descending
(`player_scores.sort(key=lambda x: x[1], reverse=True)`,
`src/controllers/pairing.py:41`). -/
def sortByScoreDesc (l : List (PlayerId × Rat)) : List (PlayerId × Rat) :=
  l.mergeSort (fun a b => decide (b.2 ≤ a.2))

/-- Python stable sort of `(id, score)` pairs by score ascending
(`sorted(player_scores, key=lambda x: x[1])`, `src/controllers/pairing.py:58`). -/
def sortByScoreAsc (l : List (PlayerId × Rat)) : List (PlayerId × Rat) :=
  l.mergeSort (fun a b => decide (a.2 ≤ b.2))

/-- The score lookup
`next((score for pid, score in player_scores if pid == current_player), 0)`
(`src/controllers/pairing.py:102-103`). -/
def scoreOfIn (ps : List (PlayerId × Rat)) (pid : PlayerId) : Rat :=
  match ps.find? (fun q => q.1 == pid) with
  | some q => q.2
  | none => 0

/-- The scan of `src/controllers/pairing.py:98-108`: walk the unpaired list in
order, skip previous opponents, and keep the first candidate attaining the
smallest absolute score difference.  The accumulator is `none` while
`best_opponent is None` (`best_score_diff = inf`), otherwise
`some (best_opponent, best_score_diff)`; the comparison is strict, so a later
candidate replaces the best only with a strictly smaller difference. -/
def scanBest (ps : List (PlayerId × Rat)) (prev : List PlayerId)
    (cur : PlayerId) : List PlayerId → Option (PlayerId × Rat) →
    Option (PlayerId × Rat)
  | [], acc => acc
  | c :: rest, none =>
    if c ∈ prev then scanBest ps prev cur rest none
    else scanBest ps prev cur rest (some (c, |scoreOfIn ps cur - scoreOfIn ps c|))
  | c :: rest, some (b, bd) =>
    if c ∈ prev then scanBest ps prev cur rest (some (b, bd))
    else if |scoreOfIn ps cur - scoreOfIn ps c| < bd then
      scanBest ps prev cur rest (some (c, |scoreOfIn ps cur - scoreOfIn ps c|))
    else scanBest ps prev cur rest (some (b, bd))

/-- Opponent choice for the current player (`src/controllers/pairing.py:94-114`):
the scan above, then the fallback `if best_opponent is None: take the first
remaining unpaired player`. -/
def chooseOpponent (ps : List (PlayerId × Rat)) (prev : List PlayerId)
    (cur : PlayerId) (unpaired : List PlayerId) : Option PlayerId :=
  match scanBest ps prev cur unpaired none with
  | some q => some q.1
  | none => unpaired.head?

/-- Colour assignment for one Swiss pairing (`src/controllers/pairing.py:120-142`):
one `random.random()` draw, compared against 0.55 when the current player is
rated below the opponent and 0.45 otherwise; on success the colours swap. -/
def swissColors (ratingOf : PlayerId → Int) (rng : Nat → Rat) (k : Nat)
    (cur opp : PlayerId) : PlayerId × PlayerId :=
  if ratingOf cur < ratingOf opp then
    if rng k < 11/20 then (opp, cur) else (cur, opp)
  else
    if rng k < 9/20 then (opp, cur) else (cur, opp)

/-- The Swiss greedy pairing loop (`src/controllers/pairing.py:92-150`).
Arguments: the scored player list, the previous-opponents lookup, ratings, the
draw stream, the unpaired list, the next board number, and the next draw
index.  Returns the real pairings created and the leftover unpaired players
(`len(unpaired) < 2` at exit).  The `none` branch of `chooseOpponent` is the
source's `if best_opponent:` guard failing: the popped player is dropped and
the loop continues (unreachable here because the fallback always yields a
player when any remain, but modelled as in the source). -/
def swissPairLoop (ps : List (PlayerId × Rat)) (prevOf : PlayerId → List PlayerId)
    (ratingOf : PlayerId → Int) (rng : Nat → Rat) :
    List PlayerId → Nat → Nat → List Pairing × List PlayerId
  | unpaired, bn, k =>
    if h : 2 ≤ unpaired.length then
      match hu : unpaired with
      | cur :: rest =>
        match chooseOpponent ps (prevOf cur) cur rest with
        | some opp =>
          let wb := swissColors ratingOf rng k cur opp
          let res := swissPairLoop ps prevOf ratingOf rng (rest.erase opp) (bn + 1) (k + 1)
          (⟨some wb.1, some wb.2, some bn, Result.ONGOING⟩ :: res.1, res.2)
        | none => swissPairLoop ps prevOf ratingOf rng rest bn k
      | [] => ([], [])
    else ([], unpaired)
  termination_by unpaired => unpaired.length
  decreasing_by
    · simp only [hu, List.length_cons]
      exact Nat.lt_succ_of_le (List.length_erase_le _ _)
    · simp [hu]

/-- Bye-recipient selection for an odd player count
(`src/controllers/pairing.py:56-77`): among the candidates sorted by score
ascending, the first who has never had a bye; if there is none, the first
candidate overall. -/
def swissByePlayer (player_scores : List (PlayerId × Rat))
    (withByes : List PlayerId) : Option PlayerId :=
  let cands := sortByScoreAsc player_scores
  match cands.find? (fun q => decide (q.1 ∉ withByes)) with
  | some q => some q.1
  | none => (cands.head?).map (fun q => q.1)

/-- The bye-allocation step of `SwissPairingStrategy.generate_pairings`
(`src/controllers/pairing.py:55-87`): for an odd player count the bye
recipient gets an immediate `WHITE_WIN` bye pairing and is removed from the
pairing pool; an even count changes nothing. -/
def swissByeSplit (player_scores : List (PlayerId × Rat))
    (withByes : List PlayerId) : List Pairing × List PlayerId :=
  let players := player_scores.map (fun q => q.1)
  if players.length % 2 ≠ 0 then
    match swissByePlayer player_scores withByes with
    | some bp => ([(⟨some bp, none, none, Result.WHITE_WIN⟩ : Pairing)], players.erase bp)
    | none => ([], players)
  else ([], players)

/-- `SwissPairingStrategy.generate_pairings` (`src/controllers/pairing.py:28-169`). -/
def swissGenerate (t : Tournament) (round_number : Nat) (now : String)
    (rng : Nat → Rat) (ratingOf : PlayerId → Int) : Round :=
  let player_scores := sortByScoreDesc (t.players.map (fun pid => (pid, get_player_score t pid)))
  let prevOf := fun pid => get_player_opponents t pid
  let byeAndRest := swissByeSplit player_scores (playersWithByes t)
  let loopRes := swissPairLoop player_scores prevOf ratingOf rng byeAndRest.2 1 0
  let pairings := byeAndRest.1 ++ loopRes.1
    ++ loopRes.2.map (fun pid => (⟨some pid, none, none, Result.WHITE_WIN⟩ : Pairing))
  ⟨round_number, renumberBoards pairings 1, some now, none⟩

/-- One step of the Round Robin rotation
(`rotation = [rotation[-1]] + rotation[:-1]`, `src/controllers/pairing.py:207`). -/
def rotr {α : Type} (l : List α) : List α :=
  match l.getLast? with
  | none => []
  | some x => x :: l.dropLast

/-- The player slots of a Round Robin round: the registered players, plus the
sentinel `none` appended when the count is odd (`src/controllers/pairing.py:181-185`). -/
def rrPadded (players : List PlayerId) : List (Option PlayerId) :=
  players.map some ++ (if players.length % 2 ≠ 0 then [none] else [])

/-- `rotated_players` (`src/controllers/pairing.py:199-209`): the first slot
stays fixed, the tail is rotated right once per elapsed round. -/
def rrRotated (q : List (Option PlayerId)) (r : Nat) : List (Option PlayerId) :=
  match q with
  | [] => []
  | p0 :: tail => p0 :: rotr^[r] tail

/-- The pairing of board slot `i` in a Round Robin round
(`src/controllers/pairing.py:212-236`): slot `i` meets slot `n-1-i`; a
sentinel side makes a bye for the real player; otherwise colours swap when
`(i + r) % 2 == 0`.  Real boards carry a placeholder number here: the strategy
renumbers every real pairing densely afterwards
(`src/controllers/pairing.py:238-241`), reproducing the loop's own counter. -/
def rrPairingAt (rot : List (Option PlayerId)) (n r i : Nat) : Pairing :=
  let white := rot.getD i none
  let black := rot.getD (n - 1 - i) none
  if white.isNone ∨ black.isNone then
    ⟨if white.isSome then white else black, none, none, Result.WHITE_WIN⟩
  else if (i + r) % 2 = 0 then
    ⟨black, white, some 0, Result.ONGOING⟩
  else
    ⟨white, black, some 0, Result.ONGOING⟩

/-- `RoundRobinPairingStrategy.generate_pairings`
(`src/controllers/pairing.py:174-246`).  It reads nothing of the tournament
but the registered player list: no prior rounds, no results, no randomness.
(For an empty player list the source raises `IndexError` at `players[0]`,
which the module-level caller turns into a failure; the claims only concern
tournaments with at least one registered player.) -/
def rrGenerate (t : Tournament) (round_number : Nat) (now : String) : Round :=
  let q := rrPadded t.players
  let n := q.length
  let rot := rrRotated q (round_number - 1)
  let pairings := (List.range (n / 2)).map (rrPairingAt rot n (round_number - 1))
  ⟨round_number, renumberBoards pairings 1, some now, none⟩

/-- The power-of-two test `(len(players) & (len(players) - 1)) != 0` negated
(`src/controllers/pairing.py:274`). -/
def isPow2 (n : Nat) : Bool := n &&& (n - 1) == 0

/-- The bye-padding loop of Knockout round 1
(`while not power of two: players.append(None)`,
`src/controllers/pairing.py:273-275`), with an explicit fuel bound: the
smallest power of two `≥ len` is `< 2·len`, so `len` appends always suffice
(`padLoop` is proved below to stop exactly at the first power of two). -/
def padLoop : Nat → List (Option PlayerId) → List (Option PlayerId)
  | 0, l => l
  | fuel + 1, l => if isPow2 l.length then l else padLoop fuel (l ++ [none])

/-- The padded Knockout round-1 bracket list. -/
def padToPow2 (l : List (Option PlayerId)) : List (Option PlayerId) :=
  if isPow2 l.length then l else padLoop l.length (l ++ [none])

/-- Python stable sort of `(id, rating)` pairs by rating descending
(`player_ratings.sort(key=lambda x: x[1], reverse=True)`,
`src/controllers/pairing.py:270`). -/
def sortByRatingDesc (l : List (PlayerId × Int)) : List (PlayerId × Int) :=
  l.mergeSort (fun a b => decide (b.2 ≤ a.2))

/-- The seeding loop of Knockout round 1 (`src/controllers/pairing.py:282-306`):
slot `i` meets slot `n-1-i`; a padding slot makes a bye; real pairings flip
colours on a fair draw and consume one draw each.  `i` is the slot index,
`bn` the next board number, `k` the next draw index. -/
def koR1Pairs (padded : List (Option PlayerId)) (n : Nat) (rng : Nat → Rat)
    (i bn k : Nat) : List Pairing :=
  if _h : i < n / 2 then
    let white := padded.getD i none
    let black := padded.getD (n - 1 - i) none
    if white.isNone ∨ black.isNone then
      ⟨if white.isSome then white else black, none, none, Result.WHITE_WIN⟩
        :: koR1Pairs padded n rng (i + 1) bn k
    else
      let wb := if rng k < 1/2 then (black, white) else (white, black)
      ⟨wb.1, wb.2, some bn, Result.ONGOING⟩ :: koR1Pairs padded n rng (i + 1) (bn + 1) (k + 1)
  else []
  termination_by n / 2 - i

/-- Winner collection from the previous Knockout round
(`src/controllers/pairing.py:318-332`): declared winners advance, drawn games
are decided by one coin-flip draw each, `ONGOING` and `DOUBLE_FORFEIT`
pairings advance nobody.  Returns the winners in pairing order and the next
draw index. -/
def koWinners (rng : Nat → Rat) : List Pairing → Nat → List (Option PlayerId) × Nat
  | [], k => ([], k)
  | p :: ps, k =>
    if p.result = Result.WHITE_WIN ∨ p.result = Result.FORFEIT_WHITE then
      let res := koWinners rng ps k
      (p.white_id :: res.1, res.2)
    else if p.result = Result.BLACK_WIN ∨ p.result = Result.FORFEIT_BLACK then
      let res := koWinners rng ps k
      (p.black_id :: res.1, res.2)
    else if p.result = Result.DRAW then
      let w := if rng k < 1/2 then p.white_id else p.black_id
      let res := koWinners rng ps (k + 1)
      (w :: res.1, res.2)
    else
      koWinners rng ps k

/-- The advancement pairing loop of Knockout rounds `> 1`
(`src/controllers/pairing.py:334-362`): winners are paired consecutively with
a coin-flip colour swap; a final unmatched winner receives a bye. -/
def koPairWinners (rng : Nat → Rat) : List (Option PlayerId) → Nat → Nat → List Pairing
  | [], _, _ => []
  | [w], _, _ => [⟨w, none, none, Result.WHITE_WIN⟩]
  | w1 :: w2 :: ws, bn, k =>
    let wb := if rng k < 1/2 then (w2, w1) else (w1, w2)
    ⟨wb.1, wb.2, some bn, Result.ONGOING⟩ :: koPairWinners rng ws (bn + 1) (k + 1)

/-- `KnockoutPairingStrategy.generate_pairings`
(`src/controllers/pairing.py:251-372`).  Raising
`ValueError(f"Cannot find previous round ...")` is modelled as `Except.error`. -/
def knockoutGenerate (t : Tournament) (round_number : Nat) (now : String)
    (rng : Nat → Rat) (ratingOf : PlayerId → Int) : Except String Round :=
  if round_number = 1 then
    let sorted := (sortByRatingDesc (t.players.map (fun pid => (pid, ratingOf pid)))).map
      (fun q => q.1)
    let padded := padToPow2 (sorted.map some)
    let n := padded.length
    Except.ok ⟨round_number, renumberBoards (koR1Pairs padded n rng 0 1 0) 1, some now, none⟩
  else
    match t.rounds.find? (fun r => r.number == round_number - 1) with
    | none => Except.error "Cannot find previous round"
    | some previous_round =>
      let ws := koWinners rng previous_round.pairings 0
      Except.ok ⟨round_number, renumberBoards (koPairWinners rng ws.1 1 ws.2) 1, some now, none⟩

/-- Strategy dispatch plus round generation, the module-level
`generate_pairings` of `src/controllers/pairing.py:392-428` (the
load-by-id step is outside the core; the tournament value stands for the
loaded object).  On any failure nothing is appended; on success the new round
is appended as by `Tournament.add_round`. -/
def generatePairingsOp (t : Tournament) (round_number : Option Nat) (now : String)
    (rng : Nat → Rat) (ratingOf : PlayerId → Int) : Bool × Tournament :=
  let rn := round_number.getD t.current_round
  if t.rounds.any (fun r => r.number == rn) then (false, t)
  else
    let res : Except String Round :=
      match t.tournament_type with
      | .SWISS => Except.ok (swissGenerate t rn now rng ratingOf)
      | .ROUND_ROBIN => Except.ok (rrGenerate t rn now)
      | .KNOCKOUT => knockoutGenerate t rn now rng ratingOf
    match res with
    | .ok r => (true, { t with rounds := t.rounds ++ [r] })
    | .error _ => (false, t)

/-- Replace the first list element satisfying `p` by its image under `f`
(Python's find-with-break followed by an in-place mutation). -/
def updFirst {α : Type} (p : α → Bool) (f : α → α) : List α → List α
  | [] => []
  | x :: xs => if p x then f x :: xs else x :: updFirst p f xs

/-- `update_result` (`src/controllers/tournament.py:211-258`): locate the first
round with the given number, then its first pairing with the given board
number, then parse the result token; any miss is a failure (`none`) and — the
mutation happening only after all three checks — leaves every pairing as it
was.  On success exactly that pairing's `result` field is replaced. -/
def updateResult (t : Tournament) (round_number board_number : Nat)
    (result : String) : Option Tournament :=
  match t.rounds.find? (fun r => r.number == round_number) with
  | none => none
  | some round_obj =>
    match round_obj.pairings.find? (fun p => p.board_number == some board_number) with
    | none => none
    | some _ =>
      match Result.ofValue result with
      | none => none
      | some v =>
        let setPairing := fun (p : Pairing) => { p with result := v }
        let setRound := fun (r : Round) =>
          { r with pairings :=
              updFirst (fun p => p.board_number == some board_number) setPairing r.pairings }
        some { t with rounds := updFirst (fun r => r.number == round_number) setRound t.rounds }

/-- Number of real pairings of a round whose result is a double forfeit
(`0-0F` awards no points to either side). -/
def dfCount (r : Round) : Nat :=
  (r.pairings.filter (fun p => p.black_id.isSome ∧ p.result = Result.DOUBLE_FORFEIT)).length

/-- Doubling loop computing the smallest power of two that is `≥ n` and
`≥ p`, for `p` itself a power of two; the fuel bounds the doublings. -/
def pow2geAux (n : Nat) : Nat → Nat → Nat
  | p, 0 => p
  | p, fuel + 1 => if n ≤ p then p else pow2geAux n (2 * p) fuel

/-- The smallest power of two `≥ n` (`pow2ge 0 = 1`). -/
def pow2ge (n : Nat) : Nat := pow2geAux n 1 n

/-- `i` is the index of the first element of `l` satisfying `p`. -/
def FirstIdx {α : Type} (p : α → Bool) (l : List α) (i : Nat) : Prop :=
  ∃ h : i < l.length, p (l.get ⟨i, h⟩) = true ∧
    ∀ j (hj : j < l.length), j < i → ¬ p (l.get ⟨j, hj⟩) = true

/-- `l'` agrees with `l` everywhere except possibly at index `i`. -/
def SameExceptAt {α : Type} (l l' : List α) (i : Nat) : Prop :=
  l'.length = l.length ∧
    ∀ j (h : j < l.length) (h' : j < l'.length), j ≠ i → l'.get ⟨j, h'⟩ = l.get ⟨j, h⟩

/-- The slot a given tail index occupies in the Round Robin rotation of round
`r` (0-indexed), for a padded slot count of `m + 1`: slot `0` is the fixed
player, slot `j ≥ 1` holds tail entry `(j - 1 + r·(m-1)) % m`; this is its
inverse direction: tail entry `u` (for `u < m`) sits at slot `(u + r) % m + 1`.
Stated as the forward map on slots: `rrSlot m r j` is the `q`-position (with
`q` the unrotated padded list) of the entry that round `r` shows at slot `j`. -/
def rrSlot (m r j : Nat) : Nat :=
  if j = 0 then 0 else (j - 1 + r * (m - 1)) % m + 1

/-- `x` and `y` meet in a real (two-sided) pairing of round `r`. -/
def pairedIn (x y : PlayerId) (r : Round) : Prop :=
  ∃ p ∈ r.pairings,
    (p.white_id = some x ∧ p.black_id = some y) ∨
    (p.white_id = some y ∧ p.black_id = some x)

/-- `x` receives a bye in round `r`. -/
def byeFor (x : PlayerId) (r : Round) : Prop :=
  ∃ p ∈ r.pairings, p.white_id = some x ∧ p.black_id = none

/-- A tournament value with the given format, players and rounds (the
remaining metadata fields take fixed sample values; nothing in the pairing
core reads them). -/
def mkTournament (ty : TournamentType) (ps : List PlayerId) (rs : List Round) : Tournament :=
  ⟨"t-1", "Open", ty, 3, "Club", "2024-01-01", none, "", "2024-01-01", "2024-01-01",
    ps, rs, 0, false⟩

/-- A draw stream whose every draw is 1 (so no `random.random() < c` test with
`c ≤ 1` succeeds: colours never swap, drawn games advance black). -/
def rngOne : Nat → Rat := fun _ => 1

/-- A rating lookup giving every player rating 0. -/
def ratingZero : PlayerId → Int := fun _ => 0

/-- A round holding one finished real game that was a double forfeit. -/
def cexRoundDF : Round :=
  ⟨1, [⟨some 1, some 2, some 1, Result.DOUBLE_FORFEIT⟩], some "2024-01-01", none⟩

/-! ## Generic helper lemmas -/

theorem updFirst_length {α : Type} (p : α → Bool) (f : α → α) (l : List α) :
    (updFirst p f l).length = l.length := by
  induction l with
  | nil => rfl
  | cons x xs ih =>
    simp only [updFirst]
    by_cases hp : p x <;> simp [hp, ih]

theorem firstIdx_of_find? {α : Type} {p : α → Bool} {l : List α} {a : α}
    (h : l.find? p = some a) :
    ∃ i, FirstIdx p l i ∧ ∃ hi : i < l.length, l.get ⟨i, hi⟩ = a := by
  induction l with
  | nil => simp at h
  | cons x xs ih =>
    by_cases hp : p x
    · rw [List.find?_cons_of_pos _ hp] at h
      refine ⟨0, ⟨by simp, by simpa using hp, ?_⟩, by simp, by simpa using h⟩
      intro j hj hj0
      omega
    · rw [List.find?_cons_of_neg _ hp] at h
      obtain ⟨i, ⟨hi, hpi, hmin⟩, hi2, hget⟩ := ih h
      refine ⟨i + 1, ⟨by simpa using hi, by simpa using hpi, ?_⟩, by simpa using hi2,
        by simpa using hget⟩
      intro j hj hji
      match j with
      | 0 => simpa using hp
      | j + 1 =>
        have := hmin j (by simpa using hj) (by omega)
        simpa using this

theorem find?_of_firstIdx {α : Type} {p : α → Bool} {l : List α} {i : Nat}
    (h : FirstIdx p l i) : ∃ hi : i < l.length, l.find? p = some (l.get ⟨i, hi⟩) := by
  induction l generalizing i with
  | nil => exact absurd h.1 (by simp)
  | cons x xs ih =>
    obtain ⟨hi, hpi, hmin⟩ := h
    refine ⟨hi, ?_⟩
    match i with
    | 0 => simpa using List.find?_cons_of_pos _ (by simpa using hpi)
    | i + 1 =>
      have hx : ¬ p x = true := by simpa using hmin 0 (by simp) (by omega)
      rw [List.find?_cons_of_neg _ hx]
      have hxs : FirstIdx p xs i :=
        ⟨by simpa using hi, by simpa using hpi,
          fun j hj hji => by simpa using hmin (j + 1) (by simpa using hj) (by omega)⟩
      obtain ⟨hi2, hfind⟩ := ih hxs
      rw [hfind]
      simp

theorem updFirst_of_firstIdx {α : Type} {p : α → Bool} (f : α → α) {l : List α} {i : Nat}
    (hfi : FirstIdx p l i) :
    SameExceptAt l (updFirst p f l) i ∧
    ∃ (h : i < l.length) (h' : i < (updFirst p f l).length),
      (updFirst p f l).get ⟨i, h'⟩ = f (l.get ⟨i, h⟩) := by
  induction l generalizing i with
  | nil => exact absurd hfi.1 (by simp)
  | cons x xs ih =>
    obtain ⟨hi, hpi, hmin⟩ := hfi
    match i with
    | 0 =>
      have hp : p x = true := by simpa using hpi
      refine ⟨⟨by simp [updFirst_length], ?_⟩, hi, by simp [updFirst, updFirst_length, hp], ?_⟩
      · intro j hj hj2 hj0
        match j with
        | 0 => omega
        | j + 1 => simp [updFirst, hp]
      · simp [updFirst, hp]
    | i + 1 =>
      have hx : ¬ p x = true := by simpa using hmin 0 (by simp) (by omega)
      have hxs : FirstIdx p xs i :=
        ⟨by simpa using hi, by simpa using hpi,
          fun j hj hji => by simpa using hmin (j + 1) (by simpa using hj) (by omega)⟩
      obtain ⟨⟨hlen, hsame⟩, hlt, hlt2, hval⟩ := ih hxs
      refine ⟨⟨by simp [updFirst_length], ?_⟩, hi, by
        simpa [updFirst, hx, updFirst_length] using hxs.1, ?_⟩
      · intro j hj hj2 hji
        match j with
        | 0 => simp [updFirst, hx]
        | j + 1 =>
          have hj3 : j < xs.length := by simpa using hj
          have := hsame j hj3 (by simpa [updFirst_length] using hj3) (by omega)
          simpa [updFirst, hx] using this
      · simpa [updFirst, hx] using hval

theorem Result.ofValue_none_iff (res : String) :
    Result.ofValue res = none ↔ ∀ v : Result, v.value ≠ res := by
  constructor
  · intro h v hv
    cases v <;> (subst hv; simp [Result.value, Result.ofValue] at h)
  · intro h
    rw [Result.ofValue.eq_def]
    split
    · exact (h Result.WHITE_WIN rfl).elim
    · exact (h Result.BLACK_WIN rfl).elim
    · exact (h Result.DRAW rfl).elim
    · exact (h Result.FORFEIT_WHITE rfl).elim
    · exact (h Result.FORFEIT_BLACK rfl).elim
    · exact (h Result.DOUBLE_FORFEIT rfl).elim
    · exact (h Result.ONGOING rfl).elim
    · rfl

/-! ## C9 — finish() idempotence -/

/-- **C9** (counterexample).  The claim states that on an already-finished
tournament a repeated `finish_tournament` call changes nothing, including the
stamped end date.  It is false: the source unconditionally restamps
`end_date` (and `save` restamps `updated_at`), so finishing an
already-finished tournament at a later time yields a different value. -/
theorem claim9_counterexample :
    (finish_tournament (mkTournament TournamentType.SWISS [1] []) "2024-02-01").is_finished
      = true ∧
    finish_tournament (finish_tournament (mkTournament TournamentType.SWISS [1] [])
        "2024-02-01") "2024-03-01"
      ≠ finish_tournament (mkTournament TournamentType.SWISS [1] []) "2024-02-01" := by
  refine ⟨rfl, fun h => ?_⟩
  have h2 := congrArg Tournament.end_date h
  simp only [finish_tournament] at h2
  exact absurd h2 (by decide)

/-- **C9** (amended).  `finish_tournament` is idempotent only up to its
timestamps: a repeated call leaves `is_finished` true and every other field
unchanged, but restamps `end_date` and `updated_at` with the new call's time —
formally, finishing twice is the same as finishing once at the second time,
and in particular a repeated call with the same timestamp is a no-op. -/
theorem claim9_finish_repeat (t : Tournament) (s s' : String) :
    (finish_tournament t s).is_finished = true ∧
    finish_tournament (finish_tournament t s) s' = finish_tournament t s' ∧
    finish_tournament (finish_tournament t s) s = finish_tournament t s :=
  ⟨rfl, rfl, rfl⟩

/-! ## C6 — Round Robin determinism -/

/-- **C6** (confirmed).  `RoundRobinPairingStrategy.generate_pairings` is a
pure function of the registered player list and the round number: two
invocations on tournaments that agree on `players` (but may differ in stored
rounds, recorded results, and every other field) and on the round number
produce identical pairing lists.  The embedded `rrGenerate` takes no draw
stream at all because the source consumes no randomness, so independence of
the random-generator state is structural. -/
theorem claim6_rr_deterministic (t1 t2 : Tournament) (rn : Nat) (now1 now2 : String)
    (h : t1.players = t2.players) :
    (rrGenerate t1 rn now1).pairings = (rrGenerate t2 rn now2).pairings := by
  simp only [rrGenerate, rrPadded, h]

/-- Witness for C6: two tournaments with the same players but different
formats, stored rounds and results nevertheless get identical round-2
pairing lists. -/
theorem claim6_witness :
    (rrGenerate (mkTournament TournamentType.ROUND_ROBIN [1, 2, 3] []) 2 "a").pairings =
    (rrGenerate (mkTournament TournamentType.SWISS [1, 2, 3] [cexRoundDF]) 2 "b").pairings :=
  claim6_rr_deterministic _ _ 2 "a" "b" rfl

/-! ## C8 — Knockout missing previous round -/

/-- **C8** (confirmed).  For a Knockout tournament and a round number `> 1`
whose previous round is not stored, the strategy raises
(`Except.error`, never `Except.ok`), and the module-level `generate_pairings`
reports failure with the tournament unchanged — in particular its round list
is exactly as before. -/
theorem claim8_knockout_missing_previous (t : Tournament) (rn : Nat) (now : String)
    (rng : Nat → Rat) (ratingOf : PlayerId → Int)
    (hty : t.tournament_type = TournamentType.KNOCKOUT)
    (hrn : 1 < rn) (hprev : ∀ r ∈ t.rounds, r.number ≠ rn - 1) :
    (∀ r, knockoutGenerate t rn now rng ratingOf ≠ Except.ok r) ∧
    generatePairingsOp t (some rn) now rng ratingOf = (false, t) := by
  have hne : ¬ rn = 1 := by omega
  have hfind : t.rounds.find? (fun r => r.number == rn - 1) = none :=
    List.find?_eq_none.2 (fun r hr => by simpa using hprev r hr)
  have hko : knockoutGenerate t rn now rng ratingOf = Except.error "Cannot find previous round" := by
    simp [knockoutGenerate, hne, hfind]
  refine ⟨fun r hr => by rw [hko] at hr; exact Except.noConfusion hr, ?_⟩
  by_cases hany : t.rounds.any (fun r => r.number == rn) = true
  · simp [generatePairingsOp, hany]
  · simp [generatePairingsOp, hany, hty, hko]

/-- Witness for C8: a Knockout tournament with no rounds, asked for round 2. -/
theorem claim8_witness :
    (∀ r, knockoutGenerate (mkTournament TournamentType.KNOCKOUT [1, 2] []) 2 "now"
        rngOne ratingZero ≠ Except.ok r) ∧
    generatePairingsOp (mkTournament TournamentType.KNOCKOUT [1, 2] []) (some 2) "now"
        rngOne ratingZero =
      (false, mkTournament TournamentType.KNOCKOUT [1, 2] []) :=
  claim8_knockout_missing_previous _ 2 "now" rngOne ratingZero rfl (by decide)
    (by intro r hr; simp [mkTournament] at hr)

/-! ## C7 — update_result -/

/-- **C7** (confirmed).  `update_result` fails exactly when the round number
matches no stored round, or the first matching round has no pairing with the
given board number, or the result string is none of the canonical tokens
(the values of the `Result` members); failure returns no updated tournament,
so every stored pairing is left as it was.  On success the returned
tournament differs from the input only in the first round with the given
number, which differs only in its first pairing with the given board number,
whose `result` becomes the parsed token. -/
theorem claim7_updateResult (t : Tournament) (rn bn : Nat) (res : String) :
    (updateResult t rn bn res = none ↔
      (∀ r ∈ t.rounds, r.number ≠ rn) ∨
      (∃ r, t.rounds.find? (fun r => r.number == rn) = some r ∧
        ∀ p ∈ r.pairings, p.board_number ≠ some bn) ∨
      (∀ v : Result, v.value ≠ res)) ∧
    (∀ t', updateResult t rn bn res = some t' →
      ∃ v, Result.ofValue res = some v ∧
        t'.players = t.players ∧ t'.is_finished = t.is_finished ∧
        t'.tournament_type = t.tournament_type ∧ t'.current_round = t.current_round ∧
        ∃ i, FirstIdx (fun r => r.number == rn) t.rounds i ∧
          SameExceptAt t.rounds t'.rounds i ∧
          ∃ (h : i < t.rounds.length) (h' : i < t'.rounds.length),
            (t'.rounds.get ⟨i, h'⟩).number = (t.rounds.get ⟨i, h⟩).number ∧
            (t'.rounds.get ⟨i, h'⟩).start_time = (t.rounds.get ⟨i, h⟩).start_time ∧
            ∃ k, FirstIdx (fun p => p.board_number == some bn) (t.rounds.get ⟨i, h⟩).pairings k ∧
              SameExceptAt (t.rounds.get ⟨i, h⟩).pairings (t'.rounds.get ⟨i, h'⟩).pairings k ∧
              ∃ (hk : k < (t.rounds.get ⟨i, h⟩).pairings.length)
                  (hk' : k < (t'.rounds.get ⟨i, h'⟩).pairings.length),
                (t'.rounds.get ⟨i, h'⟩).pairings.get ⟨k, hk'⟩ =
                  { (t.rounds.get ⟨i, h⟩).pairings.get ⟨k, hk⟩ with result := v }) := by
  constructor
  · constructor
    · intro hnone
      rcases hfr : t.rounds.find? (fun r => r.number == rn) with _ | r
      · exact Or.inl (fun r hr => by simpa using List.find?_eq_none.1 hfr r hr)
      · rcases hfp : r.pairings.find? (fun p => p.board_number == some bn) with _ | p
        · exact Or.inr (Or.inl ⟨r, hfr, fun p hp => by
            simpa using List.find?_eq_none.1 hfp p hp⟩)
        · rcases hov : Result.ofValue res with _ | v
          · exact Or.inr (Or.inr ((Result.ofValue_none_iff res).1 hov))
          · simp only [updateResult, hfr, hfp, hov] at hnone
            exact Option.noConfusion hnone
    · intro hcase
      rcases hcase with hnor | ⟨r, hfr, hnop⟩ | htok
      · have hfr : t.rounds.find? (fun r => r.number == rn) = none :=
          List.find?_eq_none.2 (fun r hr => by simpa using hnor r hr)
        simp only [updateResult, hfr]
      · have hfp : r.pairings.find? (fun p => p.board_number == some bn) = none :=
          List.find?_eq_none.2 (fun p hp => by simpa using hnop p hp)
        simp only [updateResult, hfr, hfp]
      · have hov : Result.ofValue res = none := (Result.ofValue_none_iff res).2 htok
        rcases hfr : t.rounds.find? (fun r => r.number == rn) with _ | r
        · simp only [updateResult, hfr]
        · rcases hfp : r.pairings.find? (fun p => p.board_number == some bn) with _ | p
          · simp only [updateResult, hfr, hfp]
          · simp only [updateResult, hfr, hfp, hov]
  · intro t' hsome
    rcases hfr : t.rounds.find? (fun r => r.number == rn) with _ | r
    · simp only [updateResult, hfr] at hsome
      exact Option.noConfusion hsome
    rcases hfp : r.pairings.find? (fun p => p.board_number == some bn) with _ | p
    · simp only [updateResult, hfr, hfp] at hsome
      exact Option.noConfusion hsome
    rcases hov : Result.ofValue res with _ | v
    · simp only [updateResult, hfr, hfp, hov] at hsome
      exact Option.noConfusion hsome
    simp only [updateResult, hfr, hfp, hov, Option.some.injEq] at hsome
    refine ⟨v, rfl, ?_⟩
    have ht' := hsome.symm
    subst ht'
    refine ⟨rfl, rfl, rfl, rfl, ?_⟩
    obtain ⟨i, hfi, hi, hgetr⟩ := firstIdx_of_find? hfr
    obtain ⟨hsame, hi2, hi3, hval⟩ := updFirst_of_firstIdx
      (fun r0 => Round.mk r0.number
        (updFirst (fun p => p.board_number == some bn)
          (fun p0 => Pairing.mk p0.white_id p0.black_id p0.board_number v) r0.pairings)
        r0.start_time r0.end_time) hfi
    refine ⟨i, hfi, hsame, hi, hi3, ?_⟩
    rw [hval]
    refine ⟨rfl, rfl, ?_⟩
    have hfp2 : (t.rounds.get ⟨i, hi⟩).pairings.find?
        (fun p => p.board_number == some bn) = some p := by rw [hgetr]; exact hfp
    obtain ⟨k, hfk, hk, hgetp⟩ := firstIdx_of_find? hfp2
    obtain ⟨hsame2, hk2, hk3, hval2⟩ := updFirst_of_firstIdx
      (fun p0 => Pairing.mk p0.white_id p0.black_id p0.board_number v) hfk
    exact ⟨k, hfk, hsame2, hk, hk3, hval2⟩

/-- Witness for C7: on a concrete tournament, updating a missing board fails,
and a valid update succeeds with the expected players preserved. -/
theorem claim7_witness :
    updateResult (mkTournament TournamentType.SWISS [1, 2] [cexRoundDF]) 1 99 "1-0" = none ∧
    ∃ t', updateResult (mkTournament TournamentType.SWISS [1, 2] [cexRoundDF]) 1 1 "0-1"
        = some t' ∧ t'.players = [1, 2] := by
  constructor
  · exact (claim7_updateResult (mkTournament TournamentType.SWISS [1, 2] [cexRoundDF])
      1 99 "1-0").1.2 (Or.inr (Or.inl ⟨cexRoundDF, by decide, by decide⟩))
  · have h := (claim7_updateResult (mkTournament TournamentType.SWISS [1, 2] [cexRoundDF])
      1 1 "0-1").2
      { (mkTournament TournamentType.SWISS [1, 2] [cexRoundDF]) with
          rounds := [⟨1, [⟨some 1, some 2, some 1, Result.BLACK_WIN⟩], some "2024-01-01", none⟩] }
      (by decide)
    obtain ⟨v, _, hpl, _⟩ := h
    exact ⟨_, by decide, hpl⟩

/-! ## C4 — Swiss opponent choice -/

theorem scanBest_none_iff (ps : List (PlayerId × Rat)) (prev : List PlayerId)
    (cur : PlayerId) (l : List PlayerId) (acc : Option (PlayerId × Rat)) :
    scanBest ps prev cur l acc = none ↔ acc = none ∧ ∀ c ∈ l, c ∈ prev := by
  induction l generalizing acc with
  | nil => simp [scanBest]
  | cons c rest ih =>
    rcases acc with _ | ⟨b, bd⟩
    · by_cases hc : c ∈ prev
      · rw [scanBest, if_pos hc, ih]
        simp [hc]
      · rw [scanBest, if_neg hc, ih]
        simp [hc]
    · by_cases hc : c ∈ prev
      · rw [scanBest, if_pos hc, ih]
        simp [hc]
      · rw [scanBest, if_neg hc]
        by_cases hlt : |scoreOfIn ps cur - scoreOfIn ps c| < bd
        · rw [if_pos hlt, ih]
          simp
        · rw [if_neg hlt, ih]
          simp

theorem scanBest_min (ps : List (PlayerId × Rat)) (prev : List PlayerId)
    (cur : PlayerId) (l : List PlayerId) :
    ∀ (acc : Option (PlayerId × Rat)),
      (∀ q, acc = some q → q.2 = |scoreOfIn ps cur - scoreOfIn ps q.1|) →
      ∀ b d, scanBest ps prev cur l acc = some (b, d) →
        d = |scoreOfIn ps cur - scoreOfIn ps b| ∧
        (acc = some (b, d) ∨ (b ∈ l ∧ b ∉ prev)) ∧
        (∀ c ∈ l, c ∉ prev → d ≤ |scoreOfIn ps cur - scoreOfIn ps c|) ∧
        (∀ q, acc = some q → d ≤ q.2) := by
  induction l with
  | nil =>
    intro acc hacc b d h
    simp only [scanBest] at h
    exact ⟨by simpa using hacc _ h, Or.inl h, by simp, fun q hq => by rw [hq] at h; simp_all⟩
  | cons c rest ih =>
    intro acc hacc b d h
    rcases acc with _ | ⟨b0, bd0⟩
    · by_cases hc : c ∈ prev
      · rw [scanBest, if_pos hc] at h
        obtain ⟨h1, h2, h3, _⟩ := ih none hacc b d h
        refine ⟨h1, ?_, ?_, by rintro q hq; exact Option.noConfusion hq⟩
        · rcases h2 with h2 | ⟨h2a, h2b⟩
          · exact Option.noConfusion h2
          · exact Or.inr ⟨List.mem_cons_of_mem _ h2a, h2b⟩
        · intro x hx hxp
          rcases List.mem_cons.1 hx with rfl | hx2
          · exact absurd hc hxp
          · exact h3 x hx2 hxp
      · rw [scanBest, if_neg hc] at h
        obtain ⟨h1, h2, h3, h4⟩ := ih (some (c, |scoreOfIn ps cur - scoreOfIn ps c|))
          (by intro q hq; cases Option.some.inj hq; rfl) b d h
        refine ⟨h1, ?_, ?_, by rintro q hq; exact Option.noConfusion hq⟩
        · rcases h2 with h2 | ⟨h2a, h2b⟩
          · cases congrArg Prod.fst (Option.some.inj h2)
            exact Or.inr ⟨List.mem_cons_self _ _, hc⟩
          · exact Or.inr ⟨List.mem_cons_of_mem _ h2a, h2b⟩
        · intro x hx hxp
          rcases List.mem_cons.1 hx with rfl | hx2
          · exact h4 _ rfl
          · exact h3 x hx2 hxp
    · have hbd0 : bd0 = |scoreOfIn ps cur - scoreOfIn ps b0| := by simpa using hacc _ rfl
      by_cases hc : c ∈ prev
      · rw [scanBest, if_pos hc] at h
        obtain ⟨h1, h2, h3, h4⟩ := ih (some (b0, bd0)) hacc b d h
        refine ⟨h1, ?_, ?_, h4⟩
        · rcases h2 with h2 | ⟨h2a, h2b⟩
          · exact Or.inl h2
          · exact Or.inr ⟨List.mem_cons_of_mem _ h2a, h2b⟩
        · intro x hx hxp
          rcases List.mem_cons.1 hx with rfl | hx2
          · exact absurd hc hxp
          · exact h3 x hx2 hxp
      · rw [scanBest, if_neg hc] at h
        by_cases hlt : |scoreOfIn ps cur - scoreOfIn ps c| < bd0
        · rw [if_pos hlt] at h
          obtain ⟨h1, h2, h3, h4⟩ := ih (some (c, |scoreOfIn ps cur - scoreOfIn ps c|))
            (by intro q hq; cases Option.some.inj hq; rfl) b d h
          refine ⟨h1, ?_, ?_, ?_⟩
          · rcases h2 with h2 | ⟨h2a, h2b⟩
            · cases congrArg Prod.fst (Option.some.inj h2)
              exact Or.inr ⟨List.mem_cons_self _ _, hc⟩
            · exact Or.inr ⟨List.mem_cons_of_mem _ h2a, h2b⟩
          · intro x hx hxp
            rcases List.mem_cons.1 hx with rfl | hx2
            · exact h4 _ rfl
            · exact h3 x hx2 hxp
          · intro q hq
            cases Option.some.inj hq
            exact le_of_lt (lt_of_le_of_lt (h4 _ rfl) hlt)
        · rw [if_neg hlt] at h
          obtain ⟨h1, h2, h3, h4⟩ := ih (some (b0, bd0)) hacc b d h
          refine ⟨h1, ?_, ?_, h4⟩
          · rcases h2 with h2 | ⟨h2a, h2b⟩
            · exact Or.inl h2
            · exact Or.inr ⟨List.mem_cons_of_mem _ h2a, h2b⟩
          · intro x hx hxp
            rcases List.mem_cons.1 hx with rfl | hx2
            · exact le_trans (h4 _ rfl) (le_of_not_lt hlt)
            · exact h3 x hx2 hxp

/-- **C4** (confirmed).  When the Swiss greedy loop picks an opponent for the
current player: if some remaining unpaired player is not a previous opponent,
the choice is some such player attaining the minimal absolute score
difference; only when every remaining candidate is a previous opponent does it
fall back to the first remaining unpaired player. -/
theorem claim4_swiss_choose (ps : List (PlayerId × Rat)) (prev : List PlayerId)
    (cur : PlayerId) (unpaired : List PlayerId) :
    ((∃ c ∈ unpaired, c ∉ prev) →
      ∃ b, chooseOpponent ps prev cur unpaired = some b ∧ b ∈ unpaired ∧ b ∉ prev ∧
        ∀ c ∈ unpaired, c ∉ prev →
          |scoreOfIn ps cur - scoreOfIn ps b| ≤ |scoreOfIn ps cur - scoreOfIn ps c|) ∧
    ((∀ c ∈ unpaired, c ∈ prev) → chooseOpponent ps prev cur unpaired = unpaired.head?) := by
  constructor
  · rintro ⟨c, hc, hcp⟩
    rcases hsb : scanBest ps prev cur unpaired none with _ | ⟨b, d⟩
    · exact absurd ((scanBest_none_iff ps prev cur unpaired none).1 hsb).2
        (by push_neg; exact ⟨c, hc, hcp⟩)
    · obtain ⟨h1, h2, h3, _⟩ := scanBest_min ps prev cur unpaired none
        (by rintro q hq; exact Option.noConfusion hq) b d hsb
      rcases h2 with h2 | ⟨h2a, h2b⟩
      · exact Option.noConfusion h2
      · exact ⟨b, by simp [chooseOpponent, hsb], h2a, h2b, fun x hx hxp => h1 ▸ h3 x hx hxp⟩
  · intro hall
    have hsb : scanBest ps prev cur unpaired none = none :=
      (scanBest_none_iff ps prev cur unpaired none).2 ⟨rfl, hall⟩
    simp [chooseOpponent, hsb]

/-- Witness for C4.  With scores 1:0, 2:1, 3:1/2 and previous opponents {2}
for the current player 1: among unpaired [2, 3] some legal candidate exists
and the minimal-difference legal one is chosen; with every candidate a
previous opponent, the first unpaired player is returned. -/
theorem claim4_witness :
    (∃ b, chooseOpponent [(1, 0), (2, 1), (3, 1/2)] [2] 1 [2, 3] = some b ∧
      b ∈ [2, 3] ∧ b ∉ [2] ∧
      ∀ c ∈ [2, 3], c ∉ [2] →
        |scoreOfIn [(1, 0), (2, 1), (3, 1/2)] 1 - scoreOfIn [(1, 0), (2, 1), (3, 1/2)] b| ≤
        |scoreOfIn [(1, 0), (2, 1), (3, 1/2)] 1 - scoreOfIn [(1, 0), (2, 1), (3, 1/2)] c|) ∧
    chooseOpponent [(1, 0), (2, 1), (3, 1/2)] [2, 3] 1 [2, 3] = some 2 := by
  constructor
  · exact (claim4_swiss_choose [(1, 0), (2, 1), (3, 1/2)] [2] 1 [2, 3]).1
      ⟨3, by decide, by decide⟩
  · have h := (claim4_swiss_choose [(1, 0), (2, 1), (3, 1/2)] [2, 3] 1 [2, 3]).2
      (by decide)
    simpa using h

/-! ## C3 — score conservation -/

theorem sum_map_sum_comm (l1 : List PlayerId) (l2 : List Pairing)
    (f : PlayerId → Pairing → Rat) :
    (l1.map (fun a => (l2.map (f a)).sum)).sum =
    (l2.map (fun b => (l1.map (fun a => f a b)).sum)).sum := by
  induction l2 with
  | nil => simp
  | cons b l2 ih =>
    simp only [List.map_cons, List.sum_cons, ← ih, ← List.sum_map_add]

theorem sum_map_support_one {l : List PlayerId} (hl : l.Nodup) (f : PlayerId → Rat)
    (w : PlayerId) (hw : w ∈ l) (h0 : ∀ x ∈ l, x ≠ w → f x = 0) :
    (l.map f).sum = f w := by
  induction l with
  | nil => simp at hw
  | cons x xs ih =>
    rcases List.mem_cons.1 hw with rfl | hw2
    · have hxs : ∀ y ∈ xs, f y = 0 := by
        intro y hy
        exact h0 y (List.mem_cons_of_mem _ hy) (fun hyw => (List.nodup_cons.1 hl).1 (hyw ▸ hy))
      simp only [List.map_cons, List.sum_cons]
      rw [List.sum_eq_zero (fun z hz => by
        obtain ⟨y, hy, rfl⟩ := List.mem_map.1 hz
        exact hxs y hy)]
      ring
    · have hxw : x ≠ w := fun hxw => (List.nodup_cons.1 hl).1 (hxw ▸ hw2)
      simp only [List.map_cons, List.sum_cons]
      rw [h0 x (List.mem_cons_self _ _) hxw,
        ih (List.nodup_cons.1 hl).2 hw2
          (fun y hy hyw => h0 y (List.mem_cons_of_mem _ hy) hyw)]
      ring

theorem sum_map_support_two {l : List PlayerId} (hl : l.Nodup) (f : PlayerId → Rat)
    (w b : PlayerId) (hw : w ∈ l) (hb : b ∈ l) (hwb : w ≠ b)
    (h0 : ∀ x ∈ l, x ≠ w → x ≠ b → f x = 0) :
    (l.map f).sum = f w + f b := by
  induction l with
  | nil => simp at hw
  | cons x xs ih =>
    have hnd := List.nodup_cons.1 hl
    rcases List.mem_cons.1 hw with rfl | hw2
    · have hb2 : b ∈ xs := by
        rcases List.mem_cons.1 hb with rfl | hb2
        · exact absurd rfl hwb
        · exact hb2
      simp only [List.map_cons, List.sum_cons]
      rw [sum_map_support_one hnd.2 f b hb2 (fun y hy hyb =>
        h0 y (List.mem_cons_of_mem _ hy)
          (fun hyw => hnd.1 (hyw ▸ hy)) hyb)]
    · rcases List.mem_cons.1 hb with rfl | hb2
      · simp only [List.map_cons, List.sum_cons]
        rw [sum_map_support_one hnd.2 f w hw2 (fun y hy hyw =>
          h0 y (List.mem_cons_of_mem _ hy) hyw
            (fun hyb => hnd.1 (hyb ▸ hy)))]
        ring
      · have hxw : x ≠ w := fun h => hnd.1 (h ▸ hw2)
        have hxb : x ≠ b := fun h => hnd.1 (h ▸ hb2)
        simp only [List.map_cons, List.sum_cons]
        rw [h0 x (List.mem_cons_self _ _) hxw hxb, ih hnd.2 hw2 hb2
          (fun y hy h1 h2 => h0 y (List.mem_cons_of_mem _ hy) h1 h2)]
        ring

theorem sum_pairing_classes (l : List Pairing) :
    (l.map (fun p => if p.black_id.isSome then
        (if p.result = Result.DOUBLE_FORFEIT then (0 : Rat) else 1) else 1)).sum =
      ((l.filter (fun p => p.black_id.isSome)).length : Rat)
      - ((l.filter (fun p => p.black_id.isSome ∧ p.result = Result.DOUBLE_FORFEIT)).length : Rat)
      + ((l.filter (fun p => ¬ p.black_id.isSome)).length : Rat) := by
  induction l with
  | nil => simp
  | cons p l ih =>
    by_cases hb : p.black_id.isSome
    · have hb2 : ¬ p.black_id = none := fun h => by rw [h] at hb; simp at hb
      by_cases hdf : p.result = Result.DOUBLE_FORFEIT
      · simp [List.filter_cons, hb, hb2, hdf, ih]
      · simp [List.filter_cons, hb, hb2, hdf, ih]
        ring
    · have hb2 : p.black_id = none := Option.not_isSome_iff_eq_none.1 hb
      simp [List.filter_cons, hb, hb2, ih]
      ring

/-- **C3** (amended).  For a stored round in which every result is final,
every pairing has a white side, byes carry the `WHITE_WIN` result they are
created with, and no player appears twice (the data-model invariants), the
sum over the round's players of the round's contribution to
`get_player_score` is `(k − d)·1 + b·1` where `k` counts real pairings, `d`
those among them ending in a double forfeit, and `b` the byes: a double
forfeit awards no points, so the claimed `k·1 + b·1` overcounts by `d`. -/
theorem claim3_score_conservation (r : Round)
    (hfin : ∀ p ∈ r.pairings, p.result ≠ Result.ONGOING)
    (hwhite : ∀ p ∈ r.pairings, p.white_id.isSome)
    (hbye : ∀ p ∈ r.pairings, p.black_id = none → p.result = Result.WHITE_WIN)
    (hnd : (mentionedIds r).Nodup) :
    ((mentionedIds r).map (fun pid => roundScore pid r)).sum =
      ((realCount r : Rat) - (dfCount r : Rat)) * 1 + (byeCount r : Rat) * 1 := by
  have hswap :
      ((mentionedIds r).map (fun pid => roundScore pid r)).sum =
      (r.pairings.map (fun p => ((mentionedIds r).map (fun pid => pairingScore pid p)).sum)).sum := by
    simp only [roundScore]
    exact sum_map_sum_comm _ _ _
  have hpt : ∀ p ∈ r.pairings,
      ((mentionedIds r).map (fun pid => pairingScore pid p)).sum =
      (if p.black_id.isSome then
        (if p.result = Result.DOUBLE_FORFEIT then (0 : Rat) else 1) else 1) := by
    intro p hp
    obtain ⟨w, hw⟩ : ∃ w, p.white_id = some w :=
      Option.isSome_iff_exists.1 (hwhite p hp)
    have hwM : w ∈ mentionedIds r :=
      List.mem_flatMap.2 ⟨p, hp, by simp [mentionList, hw]⟩
    rcases hblack : p.black_id with _ | b
    · have hres := hbye p hp hblack
      rw [sum_map_support_one hnd (fun pid => pairingScore pid p) w hwM
        (fun x hx hxw => by simp [pairingScore, hw, hblack, Ne.symm hxw])]
      simp [pairingScore, hw, hblack, hres]
    · have hbM : b ∈ mentionedIds r :=
        List.mem_flatMap.2 ⟨p, hp, by simp [mentionList, hblack]⟩
      have hwb : w ≠ b := by
        have hnp : (mentionList p).Nodup := (List.nodup_flatMap.1 hnd).1 p hp
        rw [mentionList, hw, hblack] at hnp
        simpa using hnp
      rw [sum_map_support_two hnd (fun pid => pairingScore pid p) w b hwM hbM hwb
        (fun x hx hxw hxb => by
          simp [pairingScore, hw, hblack, Ne.symm hxw, Ne.symm hxb])]
      have hor := hfin p hp
      cases hres2 : p.result
      case ONGOING => exact absurd hres2 hor
      case WHITE_WIN => simp [pairingScore, hw, hblack, hres2, hwb]
      case BLACK_WIN => simp [pairingScore, hw, hblack, hres2, hwb]
      case FORFEIT_WHITE => simp [pairingScore, hw, hblack, hres2, hwb]
      case FORFEIT_BLACK => simp [pairingScore, hw, hblack, hres2, hwb]
      case DOUBLE_FORFEIT => simp [pairingScore, hw, hblack, hres2, hwb]
      case DRAW =>
        simp [pairingScore, hw, hblack, hres2, hwb]
        norm_num
  rw [hswap, List.map_congr_left hpt, sum_pairing_classes]
  simp only [realCount, dfCount, byeCount]
  ring

/-- **C3** (counterexample).  A stored round holding a single finished real
game that ended in a double forfeit: `k = 1`, `b = 0`, but the round
contributes 0 points, not `k·1 + b·1 = 1` — `0-0F` awards nothing to either
player. -/
theorem claim3_counterexample :
    (∀ p ∈ cexRoundDF.pairings, p.result ≠ Result.ONGOING) ∧
    realCount cexRoundDF = 1 ∧ byeCount cexRoundDF = 0 ∧
    ((mentionedIds cexRoundDF).map (fun pid => roundScore pid cexRoundDF)).sum ≠
      (realCount cexRoundDF : Rat) * 1 + (byeCount cexRoundDF : Rat) * 1 := by
  refine ⟨by decide, by decide, by decide, ?_⟩
  have hlhs : ((mentionedIds cexRoundDF).map
      (fun pid => roundScore pid cexRoundDF)).sum = 0 := by
    simp [mentionedIds, cexRoundDF, mentionList, roundScore, pairingScore]
  have hrc : realCount cexRoundDF = 1 := by decide
  have hbc : byeCount cexRoundDF = 0 := by decide
  rw [hlhs, hrc, hbc]
  norm_num

/-- Witness for C3 (amended): a round with one drawn real game and one bye
contributes `(1 − 0)·1 + 1·1 = 2` points. -/
theorem claim3_witness :
    ((mentionedIds ⟨1, [⟨some 1, some 2, some 1, Result.DRAW⟩,
        ⟨some 3, none, none, Result.WHITE_WIN⟩], none, none⟩).map
      (fun pid => roundScore pid ⟨1, [⟨some 1, some 2, some 1, Result.DRAW⟩,
        ⟨some 3, none, none, Result.WHITE_WIN⟩], none, none⟩)).sum =
      ((realCount ⟨1, [⟨some 1, some 2, some 1, Result.DRAW⟩,
          ⟨some 3, none, none, Result.WHITE_WIN⟩], none, none⟩ : Rat)
        - (dfCount ⟨1, [⟨some 1, some 2, some 1, Result.DRAW⟩,
            ⟨some 3, none, none, Result.WHITE_WIN⟩], none, none⟩ : Rat)) * 1
      + (byeCount ⟨1, [⟨some 1, some 2, some 1, Result.DRAW⟩,
          ⟨some 3, none, none, Result.WHITE_WIN⟩], none, none⟩ : Rat) * 1 :=
  claim3_score_conservation _ (by decide) (by decide) (by decide) (by decide)

/-! ## Swiss round structure (towards C1 and C2) -/

theorem chooseOpponent_mem {ps : List (PlayerId × Rat)} {prev : List PlayerId}
    {cur b : PlayerId} {l : List PlayerId}
    (h : chooseOpponent ps prev cur l = some b) : b ∈ l := by
  rw [chooseOpponent] at h
  rcases hsb : scanBest ps prev cur l none with _ | ⟨b0, d0⟩ <;> rw [hsb] at h
  · cases l with
    | nil => simp at h
    | cons x xs => exact (Option.some.inj h) ▸ List.mem_cons_self _ _
  · obtain ⟨_, h2, _, _⟩ := scanBest_min ps prev cur l none
      (by rintro q hq; exact Option.noConfusion hq) b0 d0 hsb
    rcases h2 with h2 | ⟨h2a, _⟩
    · exact Option.noConfusion h2
    · exact (Option.some.inj h) ▸ h2a

theorem chooseOpponent_ne_none {ps : List (PlayerId × Rat)} {prev : List PlayerId}
    {cur : PlayerId} {l : List PlayerId} (h : l ≠ []) :
    chooseOpponent ps prev cur l ≠ none := by
  rw [chooseOpponent]
  rcases hsb : scanBest ps prev cur l none with _ | ⟨b0, d0⟩
  · cases l with
    | nil => exact absurd rfl h
    | cons x xs => simp
  · simp

theorem swissColors_mention_perm (ratingOf : PlayerId → Int) (rng : Nat → Rat)
    (k : Nat) (cur opp : PlayerId) :
    [(swissColors ratingOf rng k cur opp).1, (swissColors ratingOf rng k cur opp).2].Perm
      [cur, opp] := by
  rw [swissColors]
  by_cases h1 : ratingOf cur < ratingOf opp
  · rw [if_pos h1]
    by_cases h2 : rng k < 11/20
    · rw [if_pos h2]; exact List.Perm.swap _ _ _
    · rw [if_neg h2]
  · rw [if_neg h1]
    by_cases h2 : rng k < 9/20
    · rw [if_pos h2]; exact List.Perm.swap _ _ _
    · rw [if_neg h2]

theorem swissPairLoop_spec (ps : List (PlayerId × Rat)) (prevOf : PlayerId → List PlayerId)
    (ratingOf : PlayerId → Int) (rng : Nat → Rat) :
    ∀ (n : Nat) (l : List PlayerId), l.length = n → ∀ (bn k : Nat),
      ((swissPairLoop ps prevOf ratingOf rng l bn k).1.flatMap mentionList
        ++ (swissPairLoop ps prevOf ratingOf rng l bn k).2).Perm l ∧
      (swissPairLoop ps prevOf ratingOf rng l bn k).1.length = l.length / 2 ∧
      (swissPairLoop ps prevOf ratingOf rng l bn k).2.length = l.length % 2 ∧
      ∀ p ∈ (swissPairLoop ps prevOf ratingOf rng l bn k).1,
        p.white_id.isSome ∧ p.black_id.isSome ∧ p.result = Result.ONGOING := by
  intro n
  induction n using Nat.strong_induction_on with
  | _ n ih =>
    intro l hl bn k
    rcases l with _ | ⟨cur, rest⟩
    · rw [swissPairLoop]
      simp
    by_cases hlen : 2 ≤ (cur :: rest).length
    · have hrest : rest ≠ [] := by
        intro hr
        rw [hr] at hlen
        simp at hlen
      rcases hco : chooseOpponent ps (prevOf cur) cur rest with _ | opp
      · exact absurd hco (chooseOpponent_ne_none hrest)
      have hopp : opp ∈ rest := chooseOpponent_mem hco
      have herase : (rest.erase opp).length = rest.length - 1 := by
        rw [List.length_erase, if_pos hopp]
      have heq : swissPairLoop ps prevOf ratingOf rng (cur :: rest) bn k =
          (⟨some (swissColors ratingOf rng k cur opp).1,
            some (swissColors ratingOf rng k cur opp).2, some bn, Result.ONGOING⟩ ::
            (swissPairLoop ps prevOf ratingOf rng (rest.erase opp) (bn + 1) (k + 1)).1,
           (swissPairLoop ps prevOf ratingOf rng (rest.erase opp) (bn + 1) (k + 1)).2) := by
        rw [swissPairLoop]
        simp only [dif_pos hlen, hco]
      have hlt : (rest.erase opp).length < n := by
        subst hl
        simp only [List.length_cons]
        omega
      obtain ⟨ihp, ihc1, ihc2, ihshape⟩ :=
        ih (rest.erase opp).length hlt (rest.erase opp) rfl (bn + 1) (k + 1)
      rw [heq]
      refine ⟨?_, ?_, ?_, ?_⟩
      · simp only [List.flatMap_cons]
        have hm : mentionList ⟨some (swissColors ratingOf rng k cur opp).1,
            some (swissColors ratingOf rng k cur opp).2, some bn, Result.ONGOING⟩ =
            [(swissColors ratingOf rng k cur opp).1, (swissColors ratingOf rng k cur opp).2] := rfl
        rw [hm, List.append_assoc]
        refine List.Perm.trans (List.Perm.append (swissColors_mention_perm ratingOf rng k cur opp) ihp) ?_
        exact List.Perm.trans (by rfl) (List.Perm.cons cur (List.perm_cons_erase hopp).symm)
      · have h1 : 1 ≤ rest.length := by
          rcases rest with _ | _
          · exact absurd rfl hrest
          · simp
        simp only [List.length_cons, ihc1, herase]
        omega
      · have h1 : 1 ≤ rest.length := by
          rcases rest with _ | _
          · exact absurd rfl hrest
          · simp
        simp only [ihc2, herase, List.length_cons]
        omega
      · intro p hp
        rcases List.mem_cons.1 hp with rfl | hp2
        · exact ⟨rfl, rfl, rfl⟩
        · exact ihshape p hp2
    · have heq : swissPairLoop ps prevOf ratingOf rng (cur :: rest) bn k = ([], cur :: rest) := by
        rw [swissPairLoop]
        simp only [dif_neg hlen]
      rw [heq]
      have h1 : rest = [] := by
        rcases rest with _ | ⟨x, xs⟩
        · rfl
        · exact absurd (by simp) hlen
      subst h1
      exact ⟨by simp, by simp, by simp, by simp⟩

theorem renumberBoards_flatMap (l : List Pairing) (k : Nat) :
    (renumberBoards l k).flatMap mentionList = l.flatMap mentionList := by
  induction l generalizing k with
  | nil => rfl
  | cons p rest ih =>
    by_cases hb : p.black_id.isSome
    · simp only [renumberBoards, if_pos hb, List.flatMap_cons, ih]
      rfl
    · simp only [renumberBoards, if_neg hb, List.flatMap_cons, ih]

theorem renumberBoards_filter_black (q : Option PlayerId → Bool) (l : List Pairing)
    (k : Nat) :
    ((renumberBoards l k).filter (fun p => q p.black_id)).length =
    (l.filter (fun p => q p.black_id)).length := by
  induction l generalizing k with
  | nil => rfl
  | cons p rest ih =>
    by_cases hb : p.black_id.isSome
    · simp only [renumberBoards, if_pos hb, List.filter_cons]
      by_cases hq : q p.black_id
      · simp [hq, ih]
      · simp [hq, ih]
    · simp only [renumberBoards, if_neg hb, List.filter_cons]
      by_cases hq : q p.black_id
      · simp [hq, ih]
      · simp [hq, ih]

theorem byes_flatMap_mention (l : List PlayerId) :
    (l.map (fun pid => (⟨some pid, none, none, Result.WHITE_WIN⟩ : Pairing))).flatMap
      mentionList = l := by
  induction l with
  | nil => rfl
  | cons x xs ih => simp only [List.map_cons, List.flatMap_cons, ih]; rfl

theorem swissByePlayer_isSome (PS : List (PlayerId × Rat)) (ws : List PlayerId)
    (h : PS ≠ []) :
    ∃ bp, swissByePlayer PS ws = some bp ∧ bp ∈ PS.map (fun q => q.1) := by
  have hperm : (sortByScoreAsc PS).Perm PS :=
    List.mergeSort_perm PS (fun a b => decide (a.2 ≤ b.2))
  have hne : sortByScoreAsc PS ≠ [] := by
    intro hnil
    apply h
    have hlen : PS.length = 0 := by rw [← hperm.length_eq, hnil]; rfl
    exact List.length_eq_zero.1 hlen
  rcases hf : (sortByScoreAsc PS).find? (fun q => decide (q.1 ∉ ws)) with _ | q
  · rcases hcs : sortByScoreAsc PS with _ | ⟨q0, rest⟩
    · exact absurd hcs hne
    · refine ⟨q0.1, ?_, ?_⟩
      · simp only [swissByePlayer]
        rw [hf, hcs]
        rfl
      · exact List.mem_map.2 ⟨q0, hperm.subset (hcs ▸ List.mem_cons_self _ _), rfl⟩
  · have hq : q ∈ sortByScoreAsc PS := List.mem_of_find?_eq_some hf
    refine ⟨q.1, ?_, List.mem_map.2 ⟨q, hperm.subset hq, rfl⟩⟩
    simp only [swissByePlayer, hf]

theorem swissByeSplit_spec (PS : List (PlayerId × Rat)) (ws : List PlayerId) :
    ((swissByeSplit PS ws).1.flatMap mentionList ++ (swissByeSplit PS ws).2).Perm
      (PS.map (fun q => q.1)) ∧
    (∀ p ∈ (swissByeSplit PS ws).1, p.black_id = none) ∧
    (swissByeSplit PS ws).1.length = PS.length % 2 ∧
    (swissByeSplit PS ws).2.length = PS.length - PS.length % 2 := by
  have hmaplen : (PS.map (fun q => q.1)).length = PS.length := List.length_map _ _
  by_cases hpar : (PS.map (fun q => q.1)).length % 2 ≠ 0
  · have hPSne : PS ≠ [] := by
      intro hnil
      rw [hnil] at hpar
      simp at hpar
    obtain ⟨bp, hbp, hbpmem⟩ := swissByePlayer_isSome PS ws hPSne
    have hsplit : swissByeSplit PS ws =
        ([(⟨some bp, none, none, Result.WHITE_WIN⟩ : Pairing)],
          (PS.map (fun q => q.1)).erase bp) := by
      simp only [swissByeSplit, if_pos hpar, hbp]
    rw [hsplit]
    refine ⟨?_, ?_, ?_, ?_⟩
    · have hm : ([(⟨some bp, none, none, Result.WHITE_WIN⟩ : Pairing)]).flatMap mentionList
        = [bp] := rfl
      rw [hm]
      exact (List.perm_cons_erase hbpmem).symm
    · intro p hp
      rcases List.mem_cons.1 hp with rfl | hp2
      · rfl
      · simp at hp2
    · simp only [List.length_singleton]
      omega
    · rw [List.length_erase, if_pos hbpmem, hmaplen]
      omega
  · have hsplit : swissByeSplit PS ws = ([], PS.map (fun q => q.1)) := by
      simp only [swissByeSplit, if_neg hpar]
    rw [hsplit]
    have hpar2 : PS.length % 2 = 0 := by simpa using hpar
    refine ⟨by simp, by simp, by simp [hpar2], ?_⟩
    rw [hmaplen] at hpar
    simp only [List.length_nil, hmaplen]
    omega

theorem swissGenerate_spec (t : Tournament) (rn : Nat) (now : String) (rng : Nat → Rat)
    (ratingOf : PlayerId → Int) :
    (mentionedIds (swissGenerate t rn now rng ratingOf)).Perm t.players ∧
    realCount (swissGenerate t rn now rng ratingOf) = t.players.length / 2 ∧
    byeCount (swissGenerate t rn now rng ratingOf) = t.players.length % 2 := by
  set PS := sortByScoreDesc (t.players.map (fun pid => (pid, get_player_score t pid))) with hPS
  set W := playersWithByes t with hW
  set B := (swissByeSplit PS W).1 with hB
  set R := (swissByeSplit PS W).2 with hR
  set L := swissPairLoop PS (fun pid => get_player_opponents t pid) ratingOf rng R 1 0 with hL
  have hsortperm : PS.Perm (t.players.map (fun pid => (pid, get_player_score t pid))) :=
    List.mergeSort_perm _ _
  have hPSlen : PS.length = t.players.length := by
    rw [hsortperm.length_eq, List.length_map]
  have hplayers_perm : (PS.map (fun q => q.1)).Perm t.players := by
    refine (hsortperm.map _).trans ?_
    rw [List.map_map]
    have hid : ((fun q : PlayerId × Rat => q.1) ∘ fun pid => (pid, get_player_score t pid))
        = id := by funext pid; rfl
    rw [hid, List.map_id]
  obtain ⟨hBperm, hBnone, hBlen1, hBlen2⟩ := swissByeSplit_spec PS W
  obtain ⟨hLperm, hLc1, hLc2, hLshape⟩ := swissPairLoop_spec PS
    (fun pid => get_player_opponents t pid) ratingOf rng R.length R rfl 1 0
  rw [← hB] at hBperm hBnone hBlen1
  rw [← hR] at hBperm hBlen2
  rw [← hL] at hLperm hLc1 hLc2 hLshape
  have hpairs : (swissGenerate t rn now rng ratingOf).pairings =
      renumberBoards (B ++ L.1 ++ L.2.map
        (fun pid => (⟨some pid, none, none, Result.WHITE_WIN⟩ : Pairing))) 1 := rfl
  refine ⟨?_, ?_, ?_⟩
  · have hmention : mentionedIds (swissGenerate t rn now rng ratingOf) =
        B.flatMap mentionList ++ (L.1.flatMap mentionList ++ L.2) := by
      rw [mentionedIds, hpairs, renumberBoards_flatMap, List.flatMap_append,
        List.flatMap_append, byes_flatMap_mention, List.append_assoc]
    rw [hmention]
    refine List.Perm.trans (List.Perm.append_left _ hLperm) ?_
    exact hBperm.trans hplayers_perm
  · rw [realCount, hpairs]
    have h1 := renumberBoards_filter_black (fun o => o.isSome)
      (B ++ L.1 ++ L.2.map (fun pid => (⟨some pid, none, none, Result.WHITE_WIN⟩ : Pairing))) 1
    rw [h1, List.filter_append, List.filter_append, List.length_append, List.length_append]
    have hfB : (B.filter (fun p => p.black_id.isSome)).length = 0 := by
      rw [List.length_eq_zero]
      rw [List.filter_eq_nil_iff]
      intro p hp
      simp [hBnone p hp]
    have hfL1 : L.1.filter (fun p => p.black_id.isSome) = L.1 := by
      rw [List.filter_eq_self]
      intro p hp
      exact (hLshape p hp).2.1
    have hfL2 : ((L.2.map (fun pid => (⟨some pid, none, none, Result.WHITE_WIN⟩ : Pairing))).filter
        (fun p => p.black_id.isSome)).length = 0 := by
      rw [List.length_eq_zero, List.filter_eq_nil_iff]
      intro p hp
      obtain ⟨pid, _, rfl⟩ := List.mem_map.1 hp
      simp
    rw [hfB, hfL1, hfL2, hLc1, hBlen2, hPSlen]
    omega
  · rw [byeCount, hpairs]
    have h1 := renumberBoards_filter_black (fun o => decide ¬(o.isSome = true))
      (B ++ L.1 ++ L.2.map (fun pid => (⟨some pid, none, none, Result.WHITE_WIN⟩ : Pairing))) 1
    rw [h1, List.filter_append, List.filter_append, List.length_append, List.length_append]
    have hfB : B.filter (fun p => decide ¬(p.black_id.isSome = true)) = B := by
      rw [List.filter_eq_self]
      intro p hp
      simp [hBnone p hp]
    have hfL1 : (L.1.filter (fun p => decide ¬(p.black_id.isSome = true))).length = 0 := by
      rw [List.length_eq_zero, List.filter_eq_nil_iff]
      intro p hp
      simp [(hLshape p hp).2.1]
    have hfL2 : (L.2.map (fun pid => (⟨some pid, none, none, Result.WHITE_WIN⟩ : Pairing))).filter
        (fun p => decide ¬(p.black_id.isSome = true)) =
        L.2.map (fun pid => (⟨some pid, none, none, Result.WHITE_WIN⟩ : Pairing)) := by
      rw [List.filter_eq_self]
      intro p hp
      obtain ⟨pid, _, rfl⟩ := List.mem_map.1 hp
      simp
    rw [hfB, hfL1, hfL2, List.length_map, hLc2, hBlen1, hBlen2, hPSlen]
    omega

/-! ## Round Robin round structure (towards C1, C2 and C5) -/

theorem flatMap_map_eq {α β γ : Type} (f : α → β) (g : β → List γ) (l : List α) :
    (l.map f).flatMap g = l.flatMap (fun a => g (f a)) := by
  induction l with
  | nil => rfl
  | cons x xs ih => simp only [List.map_cons, List.flatMap_cons, ih]

theorem map_flatMap_eq {α β γ : Type} (f : α → List β) (g : β → γ) (l : List α) :
    (l.flatMap f).map g = l.flatMap (fun a => (f a).map g) := by
  induction l with
  | nil => rfl
  | cons x xs ih => simp only [List.flatMap_cons, List.map_append, ih]

theorem filterMap_flatMap_eq {α β γ : Type} (f : α → List β) (g : β → Option γ) (l : List α) :
    (l.flatMap f).filterMap g = l.flatMap (fun a => (f a).filterMap g) := by
  induction l with
  | nil => rfl
  | cons x xs ih => simp only [List.flatMap_cons, List.filterMap_append, ih]

theorem flatMap_perm_of_forall {α β : Type} {f g : α → List β} {l : List α}
    (h : ∀ a ∈ l, (f a).Perm (g a)) : (l.flatMap f).Perm (l.flatMap g) := by
  induction l with
  | nil => exact List.Perm.refl _
  | cons x xs ih =>
    simp only [List.flatMap_cons]
    exact List.Perm.append (h x (List.mem_cons_self _ _))
      (ih (fun a ha => h a (List.mem_cons_of_mem _ ha)))

theorem map_getD_range {α : Type} (l : List α) (d : α) :
    (List.range l.length).map (fun j => l.getD j d) = l := by
  refine List.ext_getElem (by simp) ?_
  intro j h1 h2
  have hj : j < l.length := by simpa using h2
  simp only [List.getElem_map, List.getElem_range]
  rw [List.getD_eq_getElem l d hj]

theorem rotr_length {α : Type} (l : List α) : (rotr l).length = l.length := by
  rcases l with _ | ⟨x, xs⟩
  · rfl
  · rw [rotr, List.getLast?_eq_getLast _ (by simp)]
    simp

theorem rotr_eq_rotate {α : Type} (l : List α) : rotr l = l.rotate (l.length - 1) := by
  rcases hl : l with _ | ⟨x, xs⟩
  · rfl
  · rw [rotr, List.getLast?_eq_getLast _ (by simp)]
    rw [List.rotate_eq_drop_append_take (by omega)]
    have hdrop : ∀ (m : List α) (hm : m ≠ []), m.drop (m.length - 1) = [m.getLast hm] := by
      intro m
      induction m with
      | nil => intro hm; exact absurd rfl hm
      | cons y ys ih =>
        intro hm
        rcases ys with _ | ⟨z, zs⟩
        · rfl
        · have hys2 : (z :: zs) ≠ [] := by simp
          have hlen : (y :: z :: zs).length - 1 = ((z :: zs).length - 1) + 1 := by simp
          rw [hlen, List.drop_succ_cons, ih hys2, List.getLast_cons hys2]
    rw [hdrop (x :: xs) (by simp), ← List.dropLast_eq_take]
    rfl

theorem rotr_iterate {α : Type} (r : Nat) (l : List α) :
    rotr^[r] l = l.rotate (r * (l.length - 1)) := by
  induction r generalizing l with
  | zero => simp
  | succ r ih =>
    rw [Function.iterate_succ_apply, ih (rotr l), rotr_eq_rotate, List.rotate_rotate,
      List.length_rotate]
    congr 1
    ring

theorem posPairs_perm_range (n : Nat) (hn : n % 2 = 0) :
    ((List.range (n / 2)).flatMap (fun i => [i, n - 1 - i])).Perm (List.range n) := by
  have hnd : ((List.range (n / 2)).flatMap (fun i => [i, n - 1 - i])).Nodup := by
    rw [List.nodup_flatMap]
    constructor
    · intro i hi
      have hi2 : i < n / 2 := List.mem_range.1 hi
      have hne : i ≠ n - 1 - i := by omega
      simp [hne]
    · refine List.Pairwise.imp_of_mem ?_ (List.pairwise_lt_range (n / 2))
      intro i j hi hj hij
      have hi2 : i < n / 2 := List.mem_range.1 hi
      have hj2 : j < n / 2 := List.mem_range.1 hj
      intro x hx hx2
      simp only [List.mem_cons, List.mem_singleton, List.not_mem_nil, or_false] at hx hx2
      rcases hx with rfl | rfl <;> rcases hx2 with h | h <;> omega
  refine List.perm_of_nodup_nodup_toFinset_eq hnd (List.nodup_range n) ?_
  ext x
  simp only [List.mem_toFinset, List.mem_flatMap, List.mem_range, List.mem_cons,
    List.mem_singleton, List.not_mem_nil, or_false]
  constructor
  · rintro ⟨i, hi, rfl | rfl⟩ <;> omega
  · intro hx
    by_cases hhalf : x < n / 2
    · exact ⟨x, hhalf, Or.inl rfl⟩
    · exact ⟨n - 1 - x, by omega, Or.inr (by omega)⟩

theorem rrPadded_length (players : List PlayerId) :
    (rrPadded players).length = players.length + players.length % 2 := by
  rw [rrPadded]
  by_cases hpar : players.length % 2 ≠ 0
  · rw [if_pos hpar]
    simp only [List.length_append, List.length_map, List.length_singleton]
    omega
  · rw [if_neg hpar]
    simp only [List.length_append, List.length_map, List.length_nil]
    omega

theorem rrPadded_length_even (players : List PlayerId) :
    (rrPadded players).length % 2 = 0 := by
  rw [rrPadded_length]
  omega

theorem rrPadded_filterMap (players : List PlayerId) :
    (rrPadded players).filterMap id = players := by
  rw [rrPadded, List.filterMap_append]
  have h1 : (players.map some).filterMap id = players := by
    induction players with
    | nil => rfl
    | cons x xs ih => simp only [List.map_cons, List.filterMap_cons, id, ih]
  rw [h1]
  by_cases hpar : players.length % 2 ≠ 0
  · rw [if_pos hpar]
    simp
  · rw [if_neg hpar]
    simp

theorem rrRotated_length (q : List (Option PlayerId)) (r : Nat) :
    (rrRotated q r).length = q.length := by
  rcases q with _ | ⟨p0, tail⟩
  · rfl
  · rw [rrRotated, rotr_iterate]
    simp

theorem rrRotated_perm (q : List (Option PlayerId)) (r : Nat) :
    (rrRotated q r).Perm q := by
  rcases q with _ | ⟨p0, tail⟩
  · exact List.Perm.refl _
  · rw [rrRotated, rotr_iterate]
    exact List.Perm.cons p0 (List.rotate_perm tail _)

theorem rrPairingAt_mention_perm (rot : List (Option PlayerId)) (n r i : Nat) :
    (mentionList (rrPairingAt rot n r i)).Perm
      ([rot.getD i none, rot.getD (n - 1 - i) none].filterMap id) := by
  rcases ha : rot.getD i none with _ | x <;> rcases hb : rot.getD (n - 1 - i) none with _ | y
  · rw [rrPairingAt, ha, hb]
    simp [mentionList]
  · rw [rrPairingAt, ha, hb]
    simp [mentionList]
  · rw [rrPairingAt, ha, hb]
    simp [mentionList]
  · rw [rrPairingAt, ha, hb]
    simp only [Option.isNone_some, or_self, if_false, Option.isSome_some]
    by_cases hpar : (i + r) % 2 = 0
    · rw [if_pos hpar]
      simp only [mentionList, List.filterMap_cons, id]
      exact List.Perm.swap _ _ _
    · rw [if_neg hpar]
      simp [mentionList]

theorem rrGenerate_mention_perm (t : Tournament) (rn : Nat) (now : String) :
    (mentionedIds (rrGenerate t rn now)).Perm t.players := by
  set q := rrPadded t.players with hq
  set n := q.length with hn
  set rot := rrRotated q (rn - 1) with hrot
  have hrotlen : rot.length = n := rrRotated_length q (rn - 1)
  have hmention : mentionedIds (rrGenerate t rn now) =
      (List.range (n / 2)).flatMap (fun i => mentionList (rrPairingAt rot n (rn - 1) i)) := by
    rw [mentionedIds]
    show (renumberBoards ((List.range (n / 2)).map (rrPairingAt rot n (rn - 1))) 1).flatMap
      mentionList = _
    rw [renumberBoards_flatMap, flatMap_map_eq]
  rw [hmention]
  refine List.Perm.trans (flatMap_perm_of_forall
    (fun i _ => rrPairingAt_mention_perm rot n (rn - 1) i)) ?_
  have hstep : (List.range (n / 2)).flatMap
      (fun i => [rot.getD i none, rot.getD (n - 1 - i) none].filterMap id) =
      (((List.range (n / 2)).flatMap (fun i => [i, n - 1 - i])).map
        (fun j => rot.getD j none)).filterMap id := by
    rw [map_flatMap_eq, filterMap_flatMap_eq]
    rfl
  rw [hstep]
  have hperm2 := posPairs_perm_range n (by rw [hn]; exact rrPadded_length_even t.players)
  refine List.Perm.trans (List.Perm.filterMap id (hperm2.map (fun j => rot.getD j none))) ?_
  have hrange : (List.range n).map (fun j => rot.getD j none) = rot := by
    have := map_getD_range rot none
    rw [hrotlen] at this
    exact this
  rw [hrange]
  refine List.Perm.trans (List.Perm.filterMap id (rrRotated_perm q (rn - 1))) ?_
  rw [rrPadded_filterMap]

theorem rrPadded_getD_isSome (players : List PlayerId) {j : Nat} (hj : j < players.length) :
    ((rrPadded players).getD j none).isSome := by
  rw [rrPadded, List.getD_eq_getElem?_getD, List.getElem?_append,
    if_pos (by simpa using hj), List.getElem?_map,
    List.getElem?_eq_getElem hj]
  simp

theorem rrPadded_getD_none (players : List PlayerId) {j : Nat} (hj : players.length ≤ j) :
    (rrPadded players).getD j none = none := by
  rw [rrPadded, List.getD_eq_getElem?_getD, List.getElem?_append,
    if_neg (by simp; omega)]
  by_cases hpar : players.length % 2 ≠ 0
  · rw [if_pos hpar]
    simp only [List.length_map]
    rcases hje : j - players.length with _ | k
    · simp [hje]
    · simp [hje]
  · rw [if_neg hpar]
    simp

theorem rrPairingAt_real {rot : List (Option PlayerId)} {n r i : Nat}
    (hw : (rot.getD i none).isSome) (hb : (rot.getD (n - 1 - i) none).isSome) :
    (rrPairingAt rot n r i).black_id.isSome := by
  obtain ⟨x, hx⟩ := Option.isSome_iff_exists.1 hw
  obtain ⟨y, hy⟩ := Option.isSome_iff_exists.1 hb
  rw [rrPairingAt, hx, hy]
  rw [if_neg (by simp)]
  by_cases hpar : (i + r) % 2 = 0
  · rw [if_pos hpar]
    rfl
  · rw [if_neg hpar]
    rfl

theorem rrPairingAt_bye {rot : List (Option PlayerId)} {n r i : Nat}
    (h : rot.getD i none = none ∨ rot.getD (n - 1 - i) none = none) :
    (rrPairingAt rot n r i).black_id = none := by
  rcases h with h | h
  · rw [rrPairingAt, h, if_pos (by simp)]
  · rw [rrPairingAt, h, if_pos (by simp)]

theorem rrGenerate_round1_counts (t : Tournament) (now : String)
    (hN : 1 ≤ t.players.length) :
    realCount (rrGenerate t 1 now) = t.players.length / 2 ∧
    byeCount (rrGenerate t 1 now) = t.players.length % 2 := by
  set N := t.players.length with hNdef
  set q := rrPadded t.players with hq
  set n := q.length with hn
  have hrot : rrRotated q 0 = q := by
    rcases hqe : q with _ | ⟨p0, tail⟩
    · rfl
    · rw [rrRotated]
      simp
  have hnlen : n = N + N % 2 := by rw [hn, hq]; exact rrPadded_length t.players
  have hpairs : (rrGenerate t 1 now).pairings =
      renumberBoards ((List.range (n / 2)).map (rrPairingAt q n 0)) 1 := by
    show renumberBoards ((List.range (n / 2)).map (rrPairingAt (rrRotated q (1 - 1)) n (1 - 1))) 1
      = _
    rw [show (1 : Nat) - 1 = 0 from rfl, hrot]
  have hrealP : ∀ i, 0 < i ∨ N % 2 = 0 → i < n / 2 →
      (rrPairingAt q n 0 i).black_id.isSome := by
    intro i hcase hi
    refine rrPairingAt_real ?_ ?_
    · rw [hq]
      exact rrPadded_getD_isSome t.players (by omega)
    · rw [hq]
      refine rrPadded_getD_isSome t.players ?_
      rcases hcase with hpos | heven <;> omega
  have hbyeP : N % 2 ≠ 0 → (rrPairingAt q n 0 0).black_id = none := by
    intro hpar
    refine rrPairingAt_bye (Or.inr ?_)
    rw [hq]
    exact rrPadded_getD_none t.players (by omega)
  constructor
  · rw [realCount, hpairs, renumberBoards_filter_black (fun o => o.isSome), List.filter_map,
      List.length_map]
    by_cases hpar : N % 2 = 0
    · have hall : ∀ i ∈ List.range (n / 2),
          ((fun p => p.black_id.isSome) ∘ rrPairingAt q n 0) i = true := by
        intro i hi
        simpa using hrealP i (Or.inr hpar) (List.mem_range.1 hi)
      rw [List.filter_eq_self.2 hall, List.length_range]
      omega
    · have hn2 : n / 2 = (n / 2 - 1) + 1 := by omega
      rw [hn2, List.range_succ_eq_map, List.filter_cons]
      have h0 : ¬ ((fun p => p.black_id.isSome) ∘ rrPairingAt q n 0) 0 = true := by
        simp [Function.comp_apply, hbyeP hpar]
      rw [if_neg (by simpa using h0), List.filter_map, List.length_map]
      have hall : ∀ i ∈ List.range (n / 2 - 1),
          (((fun p => p.black_id.isSome) ∘ rrPairingAt q n 0) ∘ Nat.succ) i = true := by
        intro i hi
        have hi2 : i < n / 2 - 1 := List.mem_range.1 hi
        simpa using hrealP (i + 1) (Or.inl (by omega)) (by omega)
      rw [List.filter_eq_self.2 hall, List.length_range]
      omega
  · rw [byeCount, hpairs, renumberBoards_filter_black (fun o => decide ¬(o.isSome = true)),
      List.filter_map, List.length_map]
    by_cases hpar : N % 2 = 0
    · have hall : ∀ i ∈ List.range (n / 2),
          ¬ ((fun p => decide ¬(p.black_id.isSome = true)) ∘ rrPairingAt q n 0) i = true := by
        intro i hi
        have h2 := hrealP i (Or.inr hpar) (List.mem_range.1 hi)
        have hne : ¬ (rrPairingAt q n 0 i).black_id = none := by
          intro h3
          rw [h3] at h2
          simp at h2
        simp [Function.comp_apply, hne]
      rw [List.length_eq_zero.2 (List.filter_eq_nil_iff.2 hall)]
      omega
    · have hn2 : n / 2 = (n / 2 - 1) + 1 := by omega
      rw [hn2, List.range_succ_eq_map, List.filter_cons]
      have h0 : ((fun p => decide ¬(p.black_id.isSome = true)) ∘ rrPairingAt q n 0) 0 = true := by
        simp [Function.comp_apply, hbyeP hpar]
      rw [if_pos h0, List.length_cons, List.filter_map, List.length_map]
      have hnil : (List.range (n / 2 - 1)).filter
          (((fun p => decide ¬(p.black_id.isSome = true)) ∘ rrPairingAt q n 0) ∘ Nat.succ)
          = [] := by
        rw [List.filter_eq_nil_iff]
        intro i hi
        have hi2 : i < n / 2 - 1 := List.mem_range.1 hi
        have h2 := hrealP (i + 1) (Or.inl (by omega)) (by omega)
        have hne : ¬ (rrPairingAt q n 0 (i + 1)).black_id = none := by
          intro h3
          rw [h3] at h2
          simp at h2
        simp [Function.comp_apply, hne]
      rw [hnil]
      simp only [List.length_nil]
      omega

/-! ## Knockout round structure (towards C1, C2 and C10) -/

theorem isPow2_two_pow (k : Nat) : isPow2 (2 ^ k) = true := by
  rw [isPow2]
  have h : 2 ^ k &&& (2 ^ k - 1) = 0 := by
    apply Nat.eq_of_testBit_eq
    intro i
    rw [Nat.zero_testBit, Nat.testBit_land, Nat.testBit_two_pow, Nat.testBit_two_pow_sub_one]
    by_cases hik : k = i
    · subst hik
      simp
    · simp [hik]
  rw [h]
  rfl

theorem isPow2_spec (m : Nat) : isPow2 m = true ↔ m = 0 ∨ ∃ k, m = 2 ^ k := by
  induction m using Nat.strong_induction_on with
  | _ m ih =>
    constructor
    · intro h
      have h0 : m &&& (m - 1) = 0 := by
        simpa [isPow2] using h
      rcases Nat.eq_zero_or_pos m with rfl | hpos
      · exact Or.inl rfl
      rcases Nat.even_or_odd m with ⟨c, hc⟩ | ⟨c, hc⟩
      · have hc1 : 1 ≤ c := by omega
        have hcp : isPow2 c = true := by
          rw [isPow2]
          have hcz : c &&& (c - 1) = 0 := by
            apply Nat.eq_of_testBit_eq
            intro i
            rw [Nat.zero_testBit, Nat.testBit_land]
            have hbit := congrArg (fun x => Nat.testBit x (i + 1)) h0
            simp only [Nat.zero_testBit] at hbit
            rw [Nat.testBit_land, Nat.testBit_add_one, Nat.testBit_add_one] at hbit
            have h1 : m / 2 = c := by omega
            have h2 : (m - 1) / 2 = c - 1 := by omega
            rw [h1, h2] at hbit
            exact hbit
          rw [hcz]
          rfl
        rcases (ih c (by omega)).1 hcp with rfl | ⟨k, rfl⟩
        · exact Or.inl (by omega)
        · exact Or.inr ⟨k + 1, by rw [hc]; ring⟩
      · have hc0 : c = 0 := by
          apply Nat.eq_of_testBit_eq
          intro i
          rw [Nat.zero_testBit]
          have hbit := congrArg (fun x => Nat.testBit x (i + 1)) h0
          simp only [Nat.zero_testBit] at hbit
          rw [Nat.testBit_land, Nat.testBit_add_one, Nat.testBit_add_one] at hbit
          have h1 : m / 2 = c := by omega
          have h2 : (m - 1) / 2 = c := by omega
          rw [h1, h2] at hbit
          simpa using hbit
        exact Or.inr ⟨0, by omega⟩
    · rintro (rfl | ⟨k, rfl⟩)
      · rfl
      · exact isPow2_two_pow k

theorem pow2geAux_spec (n0 : Nat) : ∀ (fuel t : Nat),
    (∀ s < t, 2 ^ s < n0) → n0 ≤ 2 ^ (t + fuel) →
    ∃ k, t ≤ k ∧ pow2geAux n0 (2 ^ t) fuel = 2 ^ k ∧ n0 ≤ 2 ^ k ∧ ∀ s < k, 2 ^ s < n0 := by
  intro fuel
  induction fuel with
  | zero =>
    intro t hinv hbound
    exact ⟨t, le_refl _, rfl, by simpa using hbound, hinv⟩
  | succ fuel ih =>
    intro t hinv hbound
    rw [pow2geAux]
    by_cases hle : n0 ≤ 2 ^ t
    · rw [if_pos hle]
      exact ⟨t, le_refl _, rfl, hle, hinv⟩
    · rw [if_neg hle]
      have h2 : 2 * 2 ^ t = 2 ^ (t + 1) := by ring
      rw [h2]
      have hinv2 : ∀ s < t + 1, 2 ^ s < n0 := by
        intro s hs
        rcases Nat.lt_succ_iff_lt_or_eq.1 hs with hs2 | rfl
        · exact hinv s hs2
        · omega
      have hbound2 : n0 ≤ 2 ^ (t + 1 + fuel) := by
        rw [show t + 1 + fuel = t + (fuel + 1) by omega]
        exact hbound
      obtain ⟨k, hk1, hk2, hk3, hk4⟩ := ih (t + 1) hinv2 hbound2
      exact ⟨k, by omega, hk2, hk3, hk4⟩

theorem pow2ge_spec (n0 : Nat) :
    ∃ k, pow2ge n0 = 2 ^ k ∧ n0 ≤ 2 ^ k ∧ ∀ s < k, 2 ^ s < n0 := by
  have h := pow2geAux_spec n0 n0 0 (by omega) (by
    simpa using le_of_lt (Nat.lt_two_pow n0))
  obtain ⟨k, _, hk2, hk3, hk4⟩ := h
  refine ⟨k, ?_, hk3, hk4⟩
  rw [pow2ge, ← hk2]
  rfl

theorem pow2ge_ge (n0 : Nat) : n0 ≤ pow2ge n0 := by
  obtain ⟨k, hk1, hk2, _⟩ := pow2ge_spec n0
  omega

theorem pow2ge_le_pow {n0 j : Nat} (h : n0 ≤ 2 ^ j) : pow2ge n0 ≤ 2 ^ j := by
  obtain ⟨k, hk1, hk2, hk3⟩ := pow2ge_spec n0
  rw [hk1]
  by_cases hkj : k ≤ j
  · exact Nat.pow_le_pow_right (by omega) hkj
  · exact absurd h (by push_neg; exact hk3 j (by omega))

theorem pow2ge_lt_two_mul {n0 : Nat} (h : 1 ≤ n0) : pow2ge n0 < 2 * n0 := by
  obtain ⟨k, hk1, hk2, hk3⟩ := pow2ge_spec n0
  rw [hk1]
  rcases k with _ | s
  · omega
  · have := hk3 s (by omega)
    have h2 : 2 ^ (s + 1) = 2 * 2 ^ s := by ring
    omega

theorem pow2ge_eq_self {n0 k : Nat} (h : n0 = 2 ^ k) : pow2ge n0 = n0 := by
  have h1 := pow2ge_ge n0
  have h2 := pow2ge_le_pow (le_of_eq h)
  omega

theorem padLoop_eq : ∀ (fuel : Nat) (l : List (Option PlayerId)) (k : Nat),
    isPow2 (l.length + k) = true → (∀ j < k, isPow2 (l.length + j) = false) → k ≤ fuel →
    padLoop fuel l = l ++ List.replicate k none := by
  intro fuel
  induction fuel with
  | zero =>
    intro l k _ _ hk
    have hk0 : k = 0 := by omega
    subst hk0
    rw [padLoop]
    simp
  | succ fuel ih =>
    intro l k h1 h2 hk
    rw [padLoop]
    by_cases hp : isPow2 l.length
    · rw [if_pos hp]
      have hk0 : k = 0 := by
        by_contra hne
        have hz := h2 0 (by omega)
        rw [Nat.add_zero] at hz
        rw [hz] at hp
        exact Bool.noConfusion hp
      subst hk0
      simp
    · rw [if_neg hp]
      have hk1 : 1 ≤ k := by
        by_contra hne
        have hk0 : k = 0 := by omega
        subst hk0
        rw [Nat.add_zero] at h1
        rw [h1] at hp
        exact hp rfl
      have hrec := ih (l ++ [none]) (k - 1)
        (by
          simp only [List.length_append, List.length_singleton]
          rw [show l.length + 1 + (k - 1) = l.length + k by omega]
          exact h1)
        (by
          intro j hj
          simp only [List.length_append, List.length_singleton]
          rw [show l.length + 1 + j = l.length + (j + 1) by omega]
          exact h2 (j + 1) (by omega))
        (by omega)
      rw [hrec, List.append_assoc]
      congr 1
      rw [show k = (k - 1) + 1 by omega, List.replicate_succ]
      rfl

theorem padToPow2_eq (l : List (Option PlayerId)) (hl : 1 ≤ l.length) :
    padToPow2 l = l ++ List.replicate (pow2ge l.length - l.length) none := by
  obtain ⟨k, hk1, hk2, hk3⟩ := pow2ge_spec l.length
  rw [padToPow2]
  by_cases hp : isPow2 l.length
  · rw [if_pos hp]
    rcases (isPow2_spec _).1 hp with h0 | ⟨j, hj⟩
    · omega
    · rw [pow2ge_eq_self hj, Nat.sub_self, List.replicate_zero, List.append_nil]
  · rw [if_neg hp]
    have hne : pow2ge l.length ≠ l.length := by
      intro heq
      rw [hk1] at heq
      rw [← heq] at hp
      rw [isPow2_two_pow] at hp
      exact hp rfl
    have hge := pow2ge_ge l.length
    have hlt := pow2ge_lt_two_mul hl
    have hrec := padLoop_eq l.length (l ++ [none]) (pow2ge l.length - l.length - 1)
      (by
        simp only [List.length_append, List.length_singleton]
        rw [show l.length + 1 + (pow2ge l.length - l.length - 1) = pow2ge l.length by omega,
          hk1]
        exact isPow2_two_pow k)
      (by
        intro j hj
        simp only [List.length_append, List.length_singleton]
        by_contra hcon
        have hcon2 : isPow2 (l.length + 1 + j) = true := by
          rcases hbool : isPow2 (l.length + 1 + j) with _ | _
          · exact absurd hbool hcon
          · rfl
        rcases (isPow2_spec _).1 hcon2 with h0 | ⟨s, hs⟩
        · omega
        · have hle2 : pow2ge l.length ≤ 2 ^ s := pow2ge_le_pow (by omega)
          omega)
      (by omega)
    rw [hrec, List.append_assoc]
    congr 1
    rw [show pow2ge l.length - l.length = (pow2ge l.length - l.length - 1) + 1 by omega,
      List.replicate_succ]
    rfl

theorem koR1Pairs_spec (padded : List (Option PlayerId)) (P N : Nat) (rng : Nat → Rat)
    (hPN : P / 2 < N)
    (hsome : ∀ j, j < N → (padded.getD j none).isSome)
    (hnone : ∀ j, N ≤ j → padded.getD j none = none) :
    ∀ (m i bn k : Nat), m = P / 2 - i → i ≤ P / 2 →
      ((koR1Pairs padded P rng i bn k).filter (fun p => p.black_id.isSome)).length
        = P / 2 - max i (P - N) ∧
      ((koR1Pairs padded P rng i bn k).filter (fun p => ¬ p.black_id.isSome)).length
        = (P - N) - min i (P - N) ∧
      ((koR1Pairs padded P rng i bn k).flatMap mentionList).Perm
        (((List.range' i (P / 2 - i)).flatMap
          (fun j => [padded.getD j none, padded.getD (P - 1 - j) none])).filterMap id) := by
  intro m
  induction m with
  | zero =>
    intro i bn k hm hi
    have hieq : i = P / 2 := by omega
    subst hieq
    rw [koR1Pairs]
    simp
    omega
  | succ m ih =>
    intro i bn k hm hi
    have hilt : i < P / 2 := by omega
    obtain ⟨x, hx⟩ := Option.isSome_iff_exists.1 (hsome i (by omega))
    have hrange : P / 2 - i = (P / 2 - (i + 1)) + 1 := by omega
    rw [hrange, List.range'_succ, List.flatMap_cons, List.filterMap_append]
    by_cases hbye : i < P - N
    · have hb : padded.getD (P - 1 - i) none = none := hnone (P - 1 - i) (by omega)
      have hstep : koR1Pairs padded P rng i bn k =
          ⟨some x, none, none, Result.WHITE_WIN⟩ :: koR1Pairs padded P rng (i + 1) bn k := by
        rw [koR1Pairs, dif_pos hilt, hx, hb]
        rw [if_pos (by simp)]
        rfl
      obtain ⟨ih1, ih2, ih3⟩ := ih (i + 1) bn k (by omega) (by omega)
      rw [hstep]
      refine ⟨?_, ?_, ?_⟩
      · rw [List.filter_cons, if_neg (by simp)]
        rw [ih1]
        omega
      · rw [List.filter_cons, if_pos (by simp)]
        rw [List.length_cons, ih2]
        omega
      · rw [List.flatMap_cons]
        have hm1 : mentionList ⟨some x, none, none, Result.WHITE_WIN⟩ = [x] := rfl
        rw [hm1, hx, hb]
        have hfm : ([some x, (none : Option PlayerId)]).filterMap id = [x] := rfl
        rw [hfm]
        exact List.Perm.append (List.Perm.refl [x]) ih3
    · have hy0 : (padded.getD (P - 1 - i) none).isSome := hsome (P - 1 - i) (by omega)
      obtain ⟨y, hy⟩ := Option.isSome_iff_exists.1 hy0
      obtain ⟨ih1, ih2, ih3⟩ := ih (i + 1) (bn + 1) (k + 1) (by omega) (by omega)
      by_cases hrng : rng k < 1/2
      · have hstep : koR1Pairs padded P rng i bn k =
            ⟨some y, some x, some bn, Result.ONGOING⟩ ::
              koR1Pairs padded P rng (i + 1) (bn + 1) (k + 1) := by
          rw [koR1Pairs, dif_pos hilt, hx, hy]
          rw [if_neg (by simp), if_pos hrng]
        rw [hstep]
        refine ⟨?_, ?_, ?_⟩
        · rw [List.filter_cons, if_pos (by simp)]
          rw [List.length_cons, ih1]
          omega
        · rw [List.filter_cons, if_neg (by simp)]
          rw [ih2]
          omega
        · rw [List.flatMap_cons]
          have hm1 : mentionList ⟨some y, some x, some bn, Result.ONGOING⟩ = [y, x] := rfl
          rw [hm1, hx, hy]
          have hfm : ([some x, some y]).filterMap id = [x, y] := rfl
          rw [hfm]
          exact List.Perm.append (List.Perm.swap x y []) ih3
      · have hstep : koR1Pairs padded P rng i bn k =
            ⟨some x, some y, some bn, Result.ONGOING⟩ ::
              koR1Pairs padded P rng (i + 1) (bn + 1) (k + 1) := by
          rw [koR1Pairs, dif_pos hilt, hx, hy]
          rw [if_neg (by simp), if_neg hrng]
        rw [hstep]
        refine ⟨?_, ?_, ?_⟩
        · rw [List.filter_cons, if_pos (by simp)]
          rw [List.length_cons, ih1]
          omega
        · rw [List.filter_cons, if_neg (by simp)]
          rw [ih2]
          omega
        · rw [List.flatMap_cons]
          have hm1 : mentionList ⟨some x, some y, some bn, Result.ONGOING⟩ = [x, y] := rfl
          rw [hm1, hx, hy]
          have hfm : ([some x, some y]).filterMap id = [x, y] := rfl
          rw [hfm]
          exact List.Perm.append (List.Perm.refl [x, y]) ih3

theorem getD_map_some_append_replicate (l : List PlayerId) (K j : Nat) :
    ((l.map some ++ List.replicate K (none : Option PlayerId)).getD j none) =
    if h : j < l.length then some (l.get ⟨j, h⟩) else none := by
  rw [List.getD_eq_getElem?_getD, List.getElem?_append]
  by_cases h : j < l.length
  · rw [if_pos (by simpa using h), List.getElem?_map, List.getElem?_eq_getElem h, dif_pos h]
    rfl
  · rw [if_neg (by simpa using h), List.getElem?_replicate, dif_neg h]
    by_cases h2 : j - (l.map some).length < K
    · rw [if_pos h2]
      rfl
    · rw [if_neg h2]
      rfl

theorem filterMap_id_map_some (l : List PlayerId) : (l.map some).filterMap id = l := by
  induction l with
  | nil => rfl
  | cons x xs ih => simp only [List.map_cons, List.filterMap_cons, id, ih]

theorem filterMap_id_replicate_none (K : Nat) :
    (List.replicate K (none : Option PlayerId)).filterMap id = [] := by
  induction K with
  | zero => rfl
  | succ m ih => simp only [List.replicate_succ, List.filterMap_cons, id, ih]

theorem knockoutGenerate_round1_spec (t : Tournament) (now : String) (rng : Nat → Rat)
    (ratingOf : PlayerId → Int) (hN : 1 ≤ t.players.length) :
    ∃ r, knockoutGenerate t 1 now rng ratingOf = Except.ok r ∧
      realCount r = pow2ge t.players.length / 2 -
        (pow2ge t.players.length - t.players.length) ∧
      byeCount r = pow2ge t.players.length - t.players.length ∧
      (2 ≤ t.players.length → (mentionedIds r).Perm t.players) ∧
      (t.players.length = 1 → mentionedIds r = []) := by
  set sorted := (sortByRatingDesc (t.players.map (fun pid => (pid, ratingOf pid)))).map
    (fun q => q.1) with hsorted
  have hsortperm : (sortByRatingDesc (t.players.map (fun pid => (pid, ratingOf pid)))).Perm
      (t.players.map (fun pid => (pid, ratingOf pid))) := List.mergeSort_perm _ _
  have hsperm : sorted.Perm t.players := by
    rw [hsorted]
    refine (hsortperm.map _).trans ?_
    rw [List.map_map]
    have hid : ((fun q : PlayerId × Int => q.1) ∘ fun pid => (pid, ratingOf pid)) = id := by
      funext pid; rfl
    rw [hid, List.map_id]
  have hslen : sorted.length = t.players.length := hsperm.length_eq
  set N := t.players.length with hNdef
  set P := pow2ge N with hPdef
  have hNP : N ≤ P := pow2ge_ge N
  have hP2N : P < 2 * N := pow2ge_lt_two_mul hN
  set padded := padToPow2 (sorted.map some) with hpadded
  have hpadeq : padded = sorted.map some ++ List.replicate (P - N) none := by
    rw [hpadded, padToPow2_eq (sorted.map some) (by simp [hslen]; omega)]
    simp [hslen]
  have hplen : padded.length = P := by
    rw [hpadeq]
    simp [hslen]
    omega
  have hsome : ∀ j, j < N → (padded.getD j none).isSome := by
    intro j hj
    rw [hpadeq, getD_map_some_append_replicate, dif_pos (by omega)]
    rfl
  have hnone : ∀ j, N ≤ j → padded.getD j none = none := by
    intro j hj
    rw [hpadeq, getD_map_some_append_replicate, dif_neg (by omega)]
  obtain ⟨hc1, hc2, hc3⟩ := koR1Pairs_spec padded padded.length N rng (by omega)
    hsome hnone (padded.length / 2) 0 1 0 (by omega) (by omega)
  refine ⟨⟨1, renumberBoards (koR1Pairs padded padded.length rng 0 1 0) 1, some now, none⟩,
    ?_, ?_, ?_, ?_, ?_⟩
  · rfl
  · rw [realCount, renumberBoards_filter_black (fun o => o.isSome), hc1]
    omega
  · rw [byeCount, renumberBoards_filter_black (fun o => decide ¬(o.isSome = true)), hc2]
    omega
  · intro h2
    have hPeven : P % 2 = 0 := by
      obtain ⟨k, hk1, hk2, _⟩ := pow2ge_spec N
      rcases k with _ | s
      · omega
      · rw [← hPdef] at hk1
        rw [hk1, pow_succ]
        omega
    show ((renumberBoards (koR1Pairs padded padded.length rng 0 1 0) 1).flatMap
      mentionList).Perm t.players
    rw [renumberBoards_flatMap]
    rw [hplen] at hc3 ⊢
    refine hc3.trans ?_
    have hr0 : List.range' 0 (P / 2) = List.range (P / 2) := (List.range_eq_range' _).symm
    rw [Nat.sub_zero, hr0]
    have hmapform : (List.range (P / 2)).flatMap
        (fun j => [padded.getD j none, padded.getD (P - 1 - j) none]) =
        ((List.range (P / 2)).flatMap (fun i => [i, P - 1 - i])).map
          (fun j => padded.getD j none) := by
      rw [map_flatMap_eq]
      rfl
    rw [hmapform]
    have hperm2 := posPairs_perm_range P hPeven
    refine (List.Perm.filterMap id (hperm2.map (fun j => padded.getD j none))).trans ?_
    have hrange : (List.range P).map (fun j => padded.getD j none) = padded := by
      have := map_getD_range padded none
      rw [hplen] at this
      exact this
    rw [hrange, hpadeq, List.filterMap_append, filterMap_id_map_some,
      filterMap_id_replicate_none, List.append_nil]
    exact hsperm
  · intro h1
    have hN1 : N = 1 := by omega
    rw [hN1] at hPdef
    have hp1 : pow2ge 1 = 1 := @pow2ge_eq_self 1 0 (by norm_num)
    have hP1 : P = 1 := by omega
    have hempty : koR1Pairs padded padded.length rng 0 1 0 = [] := by
      rw [koR1Pairs, dif_neg (by omega)]
    show (renumberBoards (koR1Pairs padded padded.length rng 0 1 0) 1).flatMap
      mentionList = []
    rw [hempty]
    rfl

/-- **C1** (counterexample).  A Knockout tournament with the 6 duplicate-free
players `[1,2,3,4,5,6]` and no rounds yields a round-1 bracket padded to 8
slots: only 2 real pairings instead of `⌊6/2⌋ = 3`, and 2 byes although `N`
is even. -/
theorem claim1_counterexample :
    ∃ r, knockoutGenerate (mkTournament TournamentType.KNOCKOUT [1, 2, 3, 4, 5, 6] [])
        1 "now" rngOne ratingZero = Except.ok r ∧
      ¬ realCount r = 6 / 2 ∧ ¬ byeCount r = 0 := by
  obtain ⟨r, hok, h1, h2, _, _⟩ := knockoutGenerate_round1_spec
    (mkTournament TournamentType.KNOCKOUT [1, 2, 3, 4, 5, 6] []) "now" rngOne ratingZero
    (by decide)
  have hlen : (mkTournament TournamentType.KNOCKOUT [1, 2, 3, 4, 5, 6] []).players.length = 6 :=
    rfl
  rw [hlen] at h1 h2
  have hp8 : pow2ge 6 = 8 := by decide
  rw [hp8] at h1 h2
  exact ⟨r, hok, by omega, by omega⟩

/-- **C1** (amended).  On a round-1 generation for `N ≥ 1` players: Swiss and
Round Robin produce exactly `⌊N/2⌋` real pairings and a bye iff `N` is odd
(`byeCount = N % 2`); Knockout pads the seeded list to `P = pow2ge N`, the
smallest power of two `≥ N`, producing `P/2 − (P−N)` real pairings and
`P − N` byes, so a bye exists iff `N` is not itself a power of two. -/
theorem claim1_round1_counts (t : Tournament) (now : String) (rng : Nat → Rat)
    (ratingOf : PlayerId → Int) (hN : 1 ≤ t.players.length) :
    (realCount (swissGenerate t 1 now rng ratingOf) = t.players.length / 2 ∧
      byeCount (swissGenerate t 1 now rng ratingOf) = t.players.length % 2) ∧
    (realCount (rrGenerate t 1 now) = t.players.length / 2 ∧
      byeCount (rrGenerate t 1 now) = t.players.length % 2) ∧
    (∃ r, knockoutGenerate t 1 now rng ratingOf = Except.ok r ∧
      realCount r = pow2ge t.players.length / 2 -
        (pow2ge t.players.length - t.players.length) ∧
      byeCount r = pow2ge t.players.length - t.players.length ∧
      (¬ byeCount r = 0 ↔ ¬ ∃ k, t.players.length = 2 ^ k)) := by
  obtain ⟨_, hs1, hs2⟩ := swissGenerate_spec t 1 now rng ratingOf
  obtain ⟨hr1, hr2⟩ := rrGenerate_round1_counts t now hN
  obtain ⟨r, hok, hk1, hk2, _, _⟩ := knockoutGenerate_round1_spec t now rng ratingOf hN
  refine ⟨⟨hs1, hs2⟩, ⟨hr1, hr2⟩, r, hok, hk1, hk2, ?_⟩
  obtain ⟨k, hke, hkge, _⟩ := pow2ge_spec t.players.length
  have hge := pow2ge_ge t.players.length
  constructor
  · intro hb hpow
    obtain ⟨j, hj⟩ := hpow
    have := pow2ge_eq_self hj
    omega
  · intro hpow hb
    rw [hk2] at hb
    exact hpow ⟨k, by omega⟩

/-- **C1** (witness).  The amended count statement instantiated at a concrete
3-player tournament. -/
theorem claim1_witness :
    1 ≤ (mkTournament TournamentType.SWISS [1, 2, 3] []).players.length ∧
    ((realCount (swissGenerate (mkTournament TournamentType.SWISS [1, 2, 3] [])
        1 "now" rngOne ratingZero) =
        (mkTournament TournamentType.SWISS [1, 2, 3] []).players.length / 2 ∧
      byeCount (swissGenerate (mkTournament TournamentType.SWISS [1, 2, 3] [])
        1 "now" rngOne ratingZero) =
        (mkTournament TournamentType.SWISS [1, 2, 3] []).players.length % 2) ∧
    (realCount (rrGenerate (mkTournament TournamentType.SWISS [1, 2, 3] []) 1 "now") =
        (mkTournament TournamentType.SWISS [1, 2, 3] []).players.length / 2 ∧
      byeCount (rrGenerate (mkTournament TournamentType.SWISS [1, 2, 3] []) 1 "now") =
        (mkTournament TournamentType.SWISS [1, 2, 3] []).players.length % 2) ∧
    (∃ r, knockoutGenerate (mkTournament TournamentType.SWISS [1, 2, 3] [])
        1 "now" rngOne ratingZero = Except.ok r ∧
      realCount r = pow2ge (mkTournament TournamentType.SWISS [1, 2, 3] []).players.length / 2 -
        (pow2ge (mkTournament TournamentType.SWISS [1, 2, 3] []).players.length -
          (mkTournament TournamentType.SWISS [1, 2, 3] []).players.length) ∧
      byeCount r = pow2ge (mkTournament TournamentType.SWISS [1, 2, 3] []).players.length -
        (mkTournament TournamentType.SWISS [1, 2, 3] []).players.length ∧
      (¬ byeCount r = 0 ↔
        ¬ ∃ k, (mkTournament TournamentType.SWISS [1, 2, 3] []).players.length = 2 ^ k))) :=
  ⟨by decide, claim1_round1_counts (mkTournament TournamentType.SWISS [1, 2, 3] [])
    "now" rngOne ratingZero (by decide)⟩

theorem filterMap_id_cons (w : Option PlayerId) (l : List (Option PlayerId)) :
    (w :: l).filterMap id = w.toList ++ l.filterMap id := by
  rcases w <;> simp

theorem koWinners_mem_origin (rng : Nat → Rat) (ps : List Pairing) :
    ∀ (k : Nat), ∀ w ∈ (koWinners rng ps k).1,
      ∃ p ∈ ps,
        ((p.result = Result.WHITE_WIN ∨ p.result = Result.FORFEIT_WHITE) ∧ w = p.white_id) ∨
        ((p.result = Result.BLACK_WIN ∨ p.result = Result.FORFEIT_BLACK) ∧ w = p.black_id) ∨
        (p.result = Result.DRAW ∧ (w = p.white_id ∨ w = p.black_id)) := by
  induction ps with
  | nil =>
    intro k w hw
    simp [koWinners] at hw
  | cons p ps ih =>
    intro k w hw
    by_cases h1 : p.result = Result.WHITE_WIN ∨ p.result = Result.FORFEIT_WHITE
    · have he : (koWinners rng (p :: ps) k).1 = p.white_id :: (koWinners rng ps k).1 := by
        rw [koWinners, if_pos h1]
      rw [he] at hw
      rcases List.mem_cons.1 hw with h | h
      · exact ⟨p, List.mem_cons_self _ _, Or.inl ⟨h1, h⟩⟩
      · obtain ⟨q, hq, hcase⟩ := ih k w h
        exact ⟨q, List.mem_cons_of_mem _ hq, hcase⟩
    · by_cases h2 : p.result = Result.BLACK_WIN ∨ p.result = Result.FORFEIT_BLACK
      · have he : (koWinners rng (p :: ps) k).1 = p.black_id :: (koWinners rng ps k).1 := by
          rw [koWinners, if_neg h1, if_pos h2]
        rw [he] at hw
        rcases List.mem_cons.1 hw with h | h
        · exact ⟨p, List.mem_cons_self _ _, Or.inr (Or.inl ⟨h2, h⟩)⟩
        · obtain ⟨q, hq, hcase⟩ := ih k w h
          exact ⟨q, List.mem_cons_of_mem _ hq, hcase⟩
      · by_cases h3 : p.result = Result.DRAW
        · have he : (koWinners rng (p :: ps) k).1 =
              (if rng k < 1/2 then p.white_id else p.black_id)
                :: (koWinners rng ps (k + 1)).1 := by
            rw [koWinners, if_neg h1, if_neg h2, if_pos h3]
          rw [he] at hw
          rcases List.mem_cons.1 hw with h | h
          · by_cases hr : rng k < 1/2
            · rw [if_pos hr] at h
              exact ⟨p, List.mem_cons_self _ _, Or.inr (Or.inr ⟨h3, Or.inl h⟩)⟩
            · rw [if_neg hr] at h
              exact ⟨p, List.mem_cons_self _ _, Or.inr (Or.inr ⟨h3, Or.inr h⟩)⟩
          · obtain ⟨q, hq, hcase⟩ := ih (k + 1) w h
            exact ⟨q, List.mem_cons_of_mem _ hq, hcase⟩
        · have he : (koWinners rng (p :: ps) k).1 = (koWinners rng ps k).1 := by
            rw [koWinners, if_neg h1, if_neg h2, if_neg h3]
          rw [he] at hw
          obtain ⟨q, hq, hcase⟩ := ih k w hw
          exact ⟨q, List.mem_cons_of_mem _ hq, hcase⟩

theorem koWinners_filterMap_sublist (rng : Nat → Rat) (ps : List Pairing) :
    ∀ (k : Nat),
      ((koWinners rng ps k).1.filterMap id).Sublist (ps.flatMap mentionList) := by
  induction ps with
  | nil =>
    intro k
    simp [koWinners]
  | cons p ps ih =>
    intro k
    rw [List.flatMap_cons, mentionList, List.append_assoc]
    by_cases h1 : p.result = Result.WHITE_WIN ∨ p.result = Result.FORFEIT_WHITE
    · have he : (koWinners rng (p :: ps) k).1 = p.white_id :: (koWinners rng ps k).1 := by
        rw [koWinners, if_pos h1]
      rw [he, filterMap_id_cons]
      exact List.Sublist.append_left
        ((ih k).trans (List.sublist_append_right _ _)) _
    · by_cases h2 : p.result = Result.BLACK_WIN ∨ p.result = Result.FORFEIT_BLACK
      · have he : (koWinners rng (p :: ps) k).1 = p.black_id :: (koWinners rng ps k).1 := by
          rw [koWinners, if_neg h1, if_pos h2]
        rw [he, filterMap_id_cons]
        exact ((List.Sublist.append_left (ih k) _).trans
          (List.sublist_append_right _ _))
      · by_cases h3 : p.result = Result.DRAW
        · have he : (koWinners rng (p :: ps) k).1 =
              (if rng k < 1/2 then p.white_id else p.black_id)
                :: (koWinners rng ps (k + 1)).1 := by
            rw [koWinners, if_neg h1, if_neg h2, if_pos h3]
          rw [he, filterMap_id_cons]
          by_cases hr : rng k < 1/2
          · rw [if_pos hr]
            exact List.Sublist.append_left
              ((ih (k + 1)).trans (List.sublist_append_right _ _)) _
          · rw [if_neg hr]
            exact ((List.Sublist.append_left (ih (k + 1)) _).trans
              (List.sublist_append_right _ _))
        · have he : (koWinners rng (p :: ps) k).1 = (koWinners rng ps k).1 := by
            rw [koWinners, if_neg h1, if_neg h2, if_neg h3]
          rw [he]
          exact (ih k).trans ((List.sublist_append_right _ _).trans
            (List.sublist_append_right _ _))

theorem koPairWinners_mention_perm (rng : Nat → Rat) :
    ∀ (m : Nat) (ws : List (Option PlayerId)) (bn k : Nat), ws.length ≤ m →
      ((koPairWinners rng ws bn k).flatMap mentionList).Perm (ws.filterMap id) := by
  intro m
  induction m with
  | zero =>
    intro ws bn k h
    have hws : ws = [] := List.length_eq_zero.1 (by omega)
    subst hws
    exact List.Perm.refl _
  | succ m ih =>
    intro ws bn k h
    match ws with
    | [] => exact List.Perm.refl _
    | [w] =>
      rcases w with _ | x
      · simp [koPairWinners, mentionList]
      · simp [koPairWinners, mentionList]
    | w1 :: w2 :: ws =>
      have hlen : ws.length ≤ m := by
        simp only [List.length_cons] at h
        omega
      have hrec := ih ws (bn + 1) (k + 1) hlen
      rw [filterMap_id_cons, filterMap_id_cons, ← List.append_assoc]
      by_cases hr : rng k < 1/2
      · have he : koPairWinners rng (w1 :: w2 :: ws) bn k =
            ⟨w2, w1, some bn, Result.ONGOING⟩ :: koPairWinners rng ws (bn + 1) (k + 1) := by
          rw [koPairWinners, if_pos hr]
        rw [he, List.flatMap_cons]
        have hm : mentionList ⟨w2, w1, some bn, Result.ONGOING⟩ = w2.toList ++ w1.toList := rfl
        rw [hm]
        exact List.Perm.append (List.perm_append_comm) hrec
      · have he : koPairWinners rng (w1 :: w2 :: ws) bn k =
            ⟨w1, w2, some bn, Result.ONGOING⟩ :: koPairWinners rng ws (bn + 1) (k + 1) := by
          rw [koPairWinners, if_neg hr]
        rw [he, List.flatMap_cons]
        have hm : mentionList ⟨w1, w2, some bn, Result.ONGOING⟩ = w1.toList ++ w2.toList := rfl
        rw [hm]
        exact List.Perm.append (List.Perm.refl _) hrec

theorem knockoutGenerate_round1_empty (t : Tournament) (now : String) (rng : Nat → Rat)
    (ratingOf : PlayerId → Int) (h0 : t.players = []) :
    knockoutGenerate t 1 now rng ratingOf = Except.ok ⟨1, [], some now, none⟩ := by
  rw [knockoutGenerate, if_pos rfl, h0]
  simp [sortByRatingDesc, padToPow2, isPow2, koR1Pairs, renumberBoards]

/-- **C2**.  With a duplicate-free player list and every stored round
mentioning each player at most once, every generated round (any strategy, any
round number) mentions each player id at most once across all pairings. -/
theorem claim2_mention_nodup (t : Tournament) (rn : Nat) (now : String) (rng : Nat → Rat)
    (ratingOf : PlayerId → Int) (hplayers : t.players.Nodup)
    (hrounds : ∀ r ∈ t.rounds, (mentionedIds r).Nodup) :
    (mentionedIds (swissGenerate t rn now rng ratingOf)).Nodup ∧
    (mentionedIds (rrGenerate t rn now)).Nodup ∧
    ∀ r, knockoutGenerate t rn now rng ratingOf = Except.ok r → (mentionedIds r).Nodup := by
  refine ⟨?_, ?_, ?_⟩
  · exact ((swissGenerate_spec t rn now rng ratingOf).1.nodup_iff).2 hplayers
  · exact ((rrGenerate_mention_perm t rn now).nodup_iff).2 hplayers
  · intro r hok
    by_cases hrn : rn = 1
    · subst hrn
      rcases Nat.lt_or_ge t.players.length 1 with h0 | h1
      · have hp0 : t.players = [] := List.length_eq_zero.1 (by omega)
        rw [knockoutGenerate_round1_empty t now rng ratingOf hp0] at hok
        have hr := Except.ok.inj hok
        subst hr
        exact List.nodup_nil
      · obtain ⟨r0, hok0, _, _, hperm, hone⟩ := knockoutGenerate_round1_spec t now rng ratingOf h1
        rw [hok0] at hok
        have hr0 : r0 = r := Except.ok.inj hok
        subst hr0
        rcases Nat.lt_or_ge t.players.length 2 with h2 | h2
        · have hlen1 : t.players.length = 1 := by omega
          rw [hone hlen1]
          exact List.nodup_nil
        · exact ((hperm h2).nodup_iff).2 hplayers
    · rw [knockoutGenerate, if_neg hrn] at hok
      rcases hfind : t.rounds.find? (fun rd => rd.number == rn - 1) with _ | prev
      · rw [hfind] at hok
        cases hok
      · rw [hfind] at hok
        have hok2 := Except.ok.inj hok
        subst hok2
        have hprev : prev ∈ t.rounds := List.mem_of_find?_eq_some hfind
        have hnd := hrounds prev hprev
        show ((renumberBoards (koPairWinners rng (koWinners rng prev.pairings 0).1 1
          (koWinners rng prev.pairings 0).2) 1).flatMap mentionList).Nodup
        rw [renumberBoards_flatMap]
        have hperm := koPairWinners_mention_perm rng (koWinners rng prev.pairings 0).1.length
          (koWinners rng prev.pairings 0).1 1 (koWinners rng prev.pairings 0).2 le_rfl
        refine (hperm.nodup_iff).2 ?_
        exact (koWinners_filterMap_sublist rng prev.pairings 0).nodup hnd

/-- **C2** (witness).  The uniqueness statement instantiated at a 4-player
Knockout tournament with one stored round, generating round 2. -/
theorem claim2_witness :
    ((mkTournament TournamentType.KNOCKOUT [1, 2, 3, 4] [cexRoundDF]).players.Nodup ∧
      ∀ r ∈ (mkTournament TournamentType.KNOCKOUT [1, 2, 3, 4] [cexRoundDF]).rounds,
        (mentionedIds r).Nodup) ∧
    ((mentionedIds (swissGenerate (mkTournament TournamentType.KNOCKOUT [1, 2, 3, 4]
        [cexRoundDF]) 2 "now" rngOne ratingZero)).Nodup ∧
      (mentionedIds (rrGenerate (mkTournament TournamentType.KNOCKOUT [1, 2, 3, 4]
        [cexRoundDF]) 2 "now")).Nodup ∧
      ∀ r, knockoutGenerate (mkTournament TournamentType.KNOCKOUT [1, 2, 3, 4] [cexRoundDF])
        2 "now" rngOne ratingZero = Except.ok r → (mentionedIds r).Nodup) :=
  ⟨⟨by decide, by decide⟩,
    claim2_mention_nodup (mkTournament TournamentType.KNOCKOUT [1, 2, 3, 4] [cexRoundDF])
      2 "now" rngOne ratingZero (by decide) (by decide)⟩

theorem mem_mentionList_of_side (q : Pairing) (z : PlayerId)
    (hz : q.white_id = some z ∨ q.black_id = some z) : z ∈ mentionList q := by
  rcases hz with hz | hz <;> simp [mentionList, hz]

/-- **C10**.  For a Knockout round `rn > 1` whose previous round exists and
mentions each player at most once, every player of the generated round is a
declared winner (white for `WHITE_WIN`/`FORFEIT_WHITE`, black for
`BLACK_WIN`/`FORFEIT_BLACK`, either side for `DRAW`) of some decided pairing
of the previous round, and no player of an `ONGOING` or `DOUBLE_FORFEIT`
pairing appears in the generated round. -/
theorem claim10_undecided_no_advance (t : Tournament) (rn : Nat) (now : String)
    (rng : Nat → Rat) (ratingOf : PlayerId → Int) (hrn : ¬ rn = 1) (prev : Round)
    (hfind : t.rounds.find? (fun rd => rd.number == rn - 1) = some prev)
    (hnd : (mentionedIds prev).Nodup) :
    ∀ r, knockoutGenerate t rn now rng ratingOf = Except.ok r →
      (∀ y ∈ mentionedIds r, ∃ q ∈ prev.pairings,
        ((q.result = Result.WHITE_WIN ∨ q.result = Result.FORFEIT_WHITE) ∧
          q.white_id = some y) ∨
        ((q.result = Result.BLACK_WIN ∨ q.result = Result.FORFEIT_BLACK) ∧
          q.black_id = some y) ∨
        (q.result = Result.DRAW ∧ (q.white_id = some y ∨ q.black_id = some y))) ∧
      (∀ p ∈ prev.pairings,
        (p.result = Result.ONGOING ∨ p.result = Result.DOUBLE_FORFEIT) →
        ∀ x, (p.white_id = some x ∨ p.black_id = some x) → ¬ x ∈ mentionedIds r) := by
  intro r hok
  rw [knockoutGenerate, if_neg hrn, hfind] at hok
  have hok2 := Except.ok.inj hok
  subst hok2
  have hmention : mentionedIds
      (⟨rn, renumberBoards (koPairWinners rng (koWinners rng prev.pairings 0).1 1
        (koWinners rng prev.pairings 0).2) 1, some now, none⟩ : Round) =
      (koPairWinners rng (koWinners rng prev.pairings 0).1 1
        (koWinners rng prev.pairings 0).2).flatMap mentionList :=
    renumberBoards_flatMap _ _
  have hperm := koPairWinners_mention_perm rng (koWinners rng prev.pairings 0).1.length
    (koWinners rng prev.pairings 0).1 1 (koWinners rng prev.pairings 0).2 le_rfl
  have hy_mem : ∀ y, y ∈ mentionedIds
      (⟨rn, renumberBoards (koPairWinners rng (koWinners rng prev.pairings 0).1 1
        (koWinners rng prev.pairings 0).2) 1, some now, none⟩ : Round) →
      some y ∈ (koWinners rng prev.pairings 0).1 := by
    intro y hy
    rw [hmention] at hy
    have hy2 := hperm.mem_iff.1 hy
    obtain ⟨a, ha, hay⟩ := List.mem_filterMap.1 hy2
    have ha2 : a = some y := hay
    rw [← ha2]
    exact ha
  constructor
  · intro y hy
    obtain ⟨q, hq, hcase⟩ := koWinners_mem_origin rng prev.pairings 0 (some y) (hy_mem y hy)
    refine ⟨q, hq, ?_⟩
    rcases hcase with ⟨hres, hside⟩ | ⟨hres, hside⟩ | ⟨hres, hside⟩
    · exact Or.inl ⟨hres, hside.symm⟩
    · exact Or.inr (Or.inl ⟨hres, hside.symm⟩)
    · rcases hside with hside | hside
      · exact Or.inr (Or.inr ⟨hres, Or.inl hside.symm⟩)
      · exact Or.inr (Or.inr ⟨hres, Or.inr hside.symm⟩)
  · intro p hp hres x hx hxmem
    obtain ⟨q, hq, hcase⟩ := koWinners_mem_origin rng prev.pairings 0 (some x) (hy_mem x hxmem)
    have hxq : x ∈ mentionList q := by
      rcases hcase with ⟨_, hside⟩ | ⟨_, hside⟩ | ⟨_, hside | hside⟩
      · exact mem_mentionList_of_side q x (Or.inl hside.symm)
      · exact mem_mentionList_of_side q x (Or.inr hside.symm)
      · exact mem_mentionList_of_side q x (Or.inl hside.symm)
      · exact mem_mentionList_of_side q x (Or.inr hside.symm)
    have hxp : x ∈ mentionList p := mem_mentionList_of_side p x hx
    have hne : q ≠ p := by
      intro heq
      subst heq
      have hq2 : ¬ (q.result = Result.ONGOING ∨ q.result = Result.DOUBLE_FORFEIT) := by
        rcases hcase with ⟨hr2, _⟩ | ⟨hr2, _⟩ | ⟨hr2, _⟩
        · rcases hr2 with hr2 | hr2 <;> rw [hr2] <;> rintro (h | h) <;> nomatch h
        · rcases hr2 with hr2 | hr2 <;> rw [hr2] <;> rintro (h | h) <;> nomatch h
        · rw [hr2]
          rintro (h | h) <;> nomatch h
      exact hq2 hres
    have hnd2 : (prev.pairings.flatMap mentionList).Nodup := hnd
    have hpw := (List.nodup_flatMap.1 hnd2).2
    have hdisj := List.Pairwise.forall
      (fun {a b} (h : (List.Disjoint on mentionList) a b) => List.Disjoint.symm h)
      hpw hq hp hne
    exact hdisj hxq hxp

/-- **C10** (witness).  The non-advancement statement instantiated at a
2-player Knockout tournament whose first round is a stored double forfeit. -/
theorem claim10_witness :
    (¬ (2 : Nat) = 1) ∧
    ((mkTournament TournamentType.KNOCKOUT [1, 2] [cexRoundDF]).rounds.find?
      (fun rd => rd.number == 2 - 1) = some cexRoundDF) ∧
    (mentionedIds cexRoundDF).Nodup ∧
    (∀ r, knockoutGenerate (mkTournament TournamentType.KNOCKOUT [1, 2] [cexRoundDF])
        2 "now" rngOne ratingZero = Except.ok r →
      (∀ y ∈ mentionedIds r, ∃ q ∈ cexRoundDF.pairings,
        ((q.result = Result.WHITE_WIN ∨ q.result = Result.FORFEIT_WHITE) ∧
          q.white_id = some y) ∨
        ((q.result = Result.BLACK_WIN ∨ q.result = Result.FORFEIT_BLACK) ∧
          q.black_id = some y) ∨
        (q.result = Result.DRAW ∧ (q.white_id = some y ∨ q.black_id = some y))) ∧
      (∀ p ∈ cexRoundDF.pairings,
        (p.result = Result.ONGOING ∨ p.result = Result.DOUBLE_FORFEIT) →
        ∀ x, (p.white_id = some x ∨ p.black_id = some x) → ¬ x ∈ mentionedIds r)) :=
  ⟨by decide, rfl, by decide,
    claim10_undecided_no_advance (mkTournament TournamentType.KNOCKOUT [1, 2] [cexRoundDF])
      2 "now" rngOne ratingZero (by decide) cexRoundDF rfl (by decide)⟩

theorem rrSlot_zero (m s : Nat) : rrSlot m s 0 = 0 := rfl

theorem rrSlot_eq_of_pos (m s j : Nat) (hj : 1 ≤ j) :
    rrSlot m s j = (j - 1 + s * (m - 1)) % m + 1 := by
  rw [rrSlot, if_neg (by omega)]

theorem rrSlot_bounds (m s j : Nat) (hm : 1 ≤ m) (hj : 1 ≤ j) :
    1 ≤ rrSlot m s j ∧ rrSlot m s j ≤ m := by
  rw [rrSlot_eq_of_pos m s j hj]
  have := Nat.mod_lt (j - 1 + s * (m - 1)) (show 0 < m by omega)
  omega

theorem gcd_succ_self (k : Nat) : Nat.gcd (k + 1) k = 1 := by
  rw [Nat.gcd_comm, Nat.gcd_rec]
  simp only [Nat.add_mod_left]
  rcases Nat.lt_or_ge k 2 with h | h
  · interval_cases k <;> rfl
  · rw [Nat.mod_eq_of_lt (by omega)]
    exact Nat.gcd_one_left k

theorem coprime_pred (m : Nat) (hm : 1 ≤ m) : Nat.gcd m (m - 1) = 1 := by
  have hk := gcd_succ_self (m - 1)
  have hm1 : m - 1 + 1 = m := by omega
  rw [hm1] at hk
  exact hk

theorem coprime_two_pred (m : Nat) (hm : 1 ≤ m) (hodd : m % 2 = 1) :
    Nat.gcd m (2 * (m - 1)) = 1 := by
  have h2 : Nat.Coprime m 2 := by
    have ho : Odd m := Nat.odd_iff.2 hodd
    exact (Nat.coprime_two_left.2 ho).symm
  have h1 : Nat.Coprime m (m - 1) := coprime_pred m hm
  exact Nat.Coprime.mul_right h2 h1

theorem rrSlot_modeq_of_eq {m s s' j j' : Nat} (hj : 1 ≤ j) (hj' : 1 ≤ j')
    (h : rrSlot m s j = rrSlot m s' j') :
    (j - 1 + s * (m - 1)) ≡ (j' - 1 + s' * (m - 1)) [MOD m] := by
  rw [rrSlot_eq_of_pos m s j hj, rrSlot_eq_of_pos m s' j' hj'] at h
  have : (j - 1 + s * (m - 1)) % m = (j' - 1 + s' * (m - 1)) % m := by omega
  exact this

theorem rrSlot_pair_ne (n : Nat) (hn2 : 2 ≤ n) (hne : n % 2 = 0) (s i : Nat)
    (hi : i < n / 2) :
    ¬ rrSlot (n - 1) s i = rrSlot (n - 1) s (n - 1 - i) := by
  have hm1 : 1 ≤ n - 1 := by omega
  have hv1 : 1 ≤ n - 1 - i := by omega
  by_cases hi0 : i = 0
  · subst hi0
    rw [rrSlot_zero]
    intro h
    have := (rrSlot_bounds (n - 1) s (n - 1 - 0) hm1 hv1).1
    omega
  · intro h
    have hmod := rrSlot_modeq_of_eq (by omega) hv1 h
    have hcancel := Nat.ModEq.add_right_cancel (Nat.ModEq.refl (s * (n - 1 - 1))) hmod
    have h1 : (i - 1) % (n - 1) = i - 1 := Nat.mod_eq_of_lt (by omega)
    have h2 : (n - 1 - i - 1) % (n - 1) = n - 1 - i - 1 := Nat.mod_eq_of_lt (by omega)
    have h3 : (i - 1) % (n - 1) = (n - 1 - i - 1) % (n - 1) := hcancel
    omega


theorem rrSlot_cancel_s (n : Nat) (hn2 : 2 ≤ n) (hne : n % 2 = 0)
    {s i s' i' : Nat} (hs : s < n - 1) (hs' : s' < n - 1)
    (hi1 : 1 ≤ i) (hi : i < n / 2) (hi1' : 1 ≤ i') (hi' : i' < n / 2)
    (c3 : (i - 1 + s * (n - 1 - 1)) + ((n - 1 - i) - 1 + s * (n - 1 - 1)) ≡
          (i' - 1 + s' * (n - 1 - 1)) + ((n - 1 - i') - 1 + s' * (n - 1 - 1)) [MOD n - 1]) :
    s = s' := by
  have hL : (i - 1 + s * (n - 1 - 1)) + ((n - 1 - i) - 1 + s * (n - 1 - 1)) =
      (n - 3) + 2 * (s * (n - 1 - 1)) := by
    generalize s * (n - 1 - 1) = X
    omega
  have hR : (i' - 1 + s' * (n - 1 - 1)) + ((n - 1 - i') - 1 + s' * (n - 1 - 1)) =
      (n - 3) + 2 * (s' * (n - 1 - 1)) := by
    generalize s' * (n - 1 - 1) = Y
    omega
  rw [hL, hR] at c3
  have c4 := Nat.ModEq.add_left_cancel (Nat.ModEq.refl (n - 3)) c3
  have hms : 2 * (s * (n - 1 - 1)) = (2 * (n - 1 - 1)) * s := by ring
  have hms' : 2 * (s' * (n - 1 - 1)) = (2 * (n - 1 - 1)) * s' := by ring
  rw [hms, hms'] at c4
  have hcop : Nat.gcd (n - 1) (2 * (n - 1 - 1)) = 1 :=
    coprime_two_pred (n - 1) (by omega) (by omega)
  have c5 := Nat.ModEq.cancel_left_of_coprime hcop c4
  have c6 : s % (n - 1) = s' % (n - 1) := c5
  rw [Nat.mod_eq_of_lt hs, Nat.mod_eq_of_lt hs'] at c6
  exact c6

theorem rrSlot_pair_inj (n : Nat) (hn2 : 2 ≤ n) (hne : n % 2 = 0)
    (s i s' i' : Nat) (hs : s < n - 1) (hi : i < n / 2)
    (hs' : s' < n - 1) (hi' : i' < n / 2)
    (h : (rrSlot (n - 1) s i = rrSlot (n - 1) s' i' ∧
          rrSlot (n - 1) s (n - 1 - i) = rrSlot (n - 1) s' (n - 1 - i')) ∨
         (rrSlot (n - 1) s i = rrSlot (n - 1) s' (n - 1 - i') ∧
          rrSlot (n - 1) s (n - 1 - i) = rrSlot (n - 1) s' i')) :
    s = s' ∧ i = i' := by
  have hm1 : 1 ≤ n - 1 := by omega
  have hv1 : 1 ≤ n - 1 - i := by omega
  have hv1' : 1 ≤ n - 1 - i' := by omega
  by_cases hi0 : i = 0
  · by_cases hi0' : i' = 0
    · subst hi0
      subst hi0'
      refine ⟨?_, rfl⟩
      rcases h with ⟨_, h2⟩ | ⟨h1, _⟩
      · have hmod := rrSlot_modeq_of_eq hv1 hv1' h2
        have hx : n - 1 - 0 - 1 + s * (n - 1 - 1) = (n - 2) + s * (n - 1 - 1) := by
          generalize s * (n - 1 - 1) = X
          omega
        have hy : n - 1 - 0 - 1 + s' * (n - 1 - 1) = (n - 2) + s' * (n - 1 - 1) := by
          generalize s' * (n - 1 - 1) = Y
          omega
        rw [hx, hy] at hmod
        have c4 := Nat.ModEq.add_left_cancel (Nat.ModEq.refl (n - 2)) hmod
        have hms : s * (n - 1 - 1) = (n - 1 - 1) * s := by ring
        have hms' : s' * (n - 1 - 1) = (n - 1 - 1) * s' := by ring
        rw [hms, hms'] at c4
        have hcop : Nat.gcd (n - 1) (n - 1 - 1) = 1 := coprime_pred (n - 1) hm1
        have c5 := Nat.ModEq.cancel_left_of_coprime hcop c4
        have c6 : s % (n - 1) = s' % (n - 1) := c5
        rw [Nat.mod_eq_of_lt hs, Nat.mod_eq_of_lt hs'] at c6
        exact c6
      · rw [rrSlot_zero] at h1
        have := (rrSlot_bounds (n - 1) s' (n - 1 - 0) hm1 (by omega)).1
        omega
    · exfalso
      rcases h with ⟨h1, _⟩ | ⟨h1, _⟩
      · subst hi0
        rw [rrSlot_zero] at h1
        have := (rrSlot_bounds (n - 1) s' i' hm1 (by omega)).1
        omega
      · subst hi0
        rw [rrSlot_zero] at h1
        have := (rrSlot_bounds (n - 1) s' (n - 1 - i') hm1 hv1').1
        omega
  · by_cases hi0' : i' = 0
    · exfalso
      rcases h with ⟨h1, _⟩ | ⟨_, h2⟩
      · subst hi0'
        rw [rrSlot_zero] at h1
        have := (rrSlot_bounds (n - 1) s i hm1 (by omega)).1
        omega
      · subst hi0'
        rw [rrSlot_zero] at h2
        have := (rrSlot_bounds (n - 1) s (n - 1 - i) hm1 hv1).1
        omega
    · have hi1 : 1 ≤ i := by omega
      have hi1' : 1 ≤ i' := by omega
      rcases h with ⟨h1, h2⟩ | ⟨h1, h2⟩
      · have c1 := rrSlot_modeq_of_eq hi1 hi1' h1
        have c2 := rrSlot_modeq_of_eq hv1 hv1' h2
        have hss := rrSlot_cancel_s n hn2 hne hs hs' hi1 hi hi1' hi' (c1.add c2)
        subst hss
        refine ⟨rfl, ?_⟩
        have c7 := Nat.ModEq.add_right_cancel (Nat.ModEq.refl (s * (n - 1 - 1))) c1
        have c8 : (i - 1) % (n - 1) = (i' - 1) % (n - 1) := c7
        rw [Nat.mod_eq_of_lt (by omega), Nat.mod_eq_of_lt (by omega)] at c8
        omega
      · have c1 := rrSlot_modeq_of_eq hi1 hv1' h1
        have c2 := rrSlot_modeq_of_eq hv1 hi1' h2
        have hsum := c1.add c2
        rw [Nat.add_comm (n - 1 - i' - 1 + s' * (n - 1 - 1)) (i' - 1 + s' * (n - 1 - 1))] at hsum
        have hss := rrSlot_cancel_s n hn2 hne hs hs' hi1 hi hi1' hi' hsum
        subst hss
        exfalso
        have c7 := Nat.ModEq.add_right_cancel (Nat.ModEq.refl (s * (n - 1 - 1))) c1
        have c8 : (i - 1) % (n - 1) = (n - 1 - i' - 1) % (n - 1) := c7
        rw [Nat.mod_eq_of_lt (by omega), Nat.mod_eq_of_lt (by omega)] at c8
        omega

theorem finset_pair_cases {u v a b : Nat} (huv : ¬ u = v)
    (h : ({u, v} : Finset Nat) = {a, b}) :
    (u = a ∧ v = b) ∨ (u = b ∧ v = a) := by
  have hu : u ∈ ({a, b} : Finset Nat) := by
    rw [← h]
    exact Finset.mem_insert_self u {v}
  have hv : v ∈ ({a, b} : Finset Nat) := by
    rw [← h]
    exact Finset.mem_insert_of_mem (Finset.mem_singleton_self v)
  simp only [Finset.mem_insert, Finset.mem_singleton] at hu hv
  rcases hu with hu | hu <;> rcases hv with hv | hv
  · exact absurd (hu.trans hv.symm) huv
  · exact Or.inl ⟨hu, hv⟩
  · exact Or.inr ⟨hu, hv⟩
  · exact absurd (hu.trans hv.symm) huv

theorem rrSlot_pair_exists (n : Nat) (hn2 : 2 ≤ n) (hne : n % 2 = 0)
    (a b : Nat) (hab : ¬ a = b) (ha : a < n) (hb : b < n) :
    ∃ s i, (s < n - 1 ∧ i < n / 2) ∧
      ((rrSlot (n - 1) s i = a ∧ rrSlot (n - 1) s (n - 1 - i) = b) ∨
       (rrSlot (n - 1) s i = b ∧ rrSlot (n - 1) s (n - 1 - i) = a)) := by
  have hm1 : 1 ≤ n - 1 := by omega
  have hf : ∀ (si : Nat × Nat)
      (hsi : si ∈ (Finset.range (n - 1)) ×ˢ (Finset.range (n / 2))),
      ({rrSlot (n - 1) si.1 si.2, rrSlot (n - 1) si.1 (n - 1 - si.2)} : Finset Nat) ∈
        Finset.powersetCard 2 (Finset.range n) := by
    intro si hsi
    obtain ⟨hs, hi⟩ := Finset.mem_product.1 hsi
    rw [Finset.mem_range] at hs hi
    rw [Finset.mem_powersetCard]
    constructor
    · intro z hz
      simp only [Finset.mem_insert, Finset.mem_singleton] at hz
      rw [Finset.mem_range]
      rcases hz with hz | hz
      · subst hz
        rcases Nat.eq_zero_or_pos si.2 with h0 | h0
        · rw [h0, rrSlot_zero]
          omega
        · have := (rrSlot_bounds (n - 1) si.1 si.2 hm1 h0).2
          omega
      · subst hz
        have := (rrSlot_bounds (n - 1) si.1 (n - 1 - si.2) hm1 (by omega)).2
        omega
    · exact Finset.card_pair (rrSlot_pair_ne n hn2 hne si.1 si.2 hi)
  have hinj : ∀ (s1 s2 : Nat × Nat)
      (h1 : s1 ∈ (Finset.range (n - 1)) ×ˢ (Finset.range (n / 2)))
      (h2 : s2 ∈ (Finset.range (n - 1)) ×ˢ (Finset.range (n / 2))),
      ({rrSlot (n - 1) s1.1 s1.2, rrSlot (n - 1) s1.1 (n - 1 - s1.2)} : Finset Nat) =
      ({rrSlot (n - 1) s2.1 s2.2, rrSlot (n - 1) s2.1 (n - 1 - s2.2)} : Finset Nat) →
      s1 = s2 := by
    intro s1 s2 h1 h2 heq
    obtain ⟨hs1, hi1⟩ := Finset.mem_product.1 h1
    obtain ⟨hs2, hi2⟩ := Finset.mem_product.1 h2
    rw [Finset.mem_range] at hs1 hi1 hs2 hi2
    have hne1 := rrSlot_pair_ne n hn2 hne s1.1 s1.2 hi1
    have hcases := finset_pair_cases hne1 heq
    have := rrSlot_pair_inj n hn2 hne s1.1 s1.2 s2.1 s2.2 hs1 hi1 hs2 hi2 hcases
    exact Prod.ext this.1 this.2
  have hcard : (Finset.powersetCard 2 (Finset.range n)).card ≤
      ((Finset.range (n - 1)) ×ˢ (Finset.range (n / 2))).card := by
    rw [Finset.card_powersetCard, Finset.card_product]
    simp only [Finset.card_range]
    rw [Nat.choose_two_right]
    obtain ⟨t, ht⟩ : ∃ t, n = 2 * t := ⟨n / 2, by omega⟩
    have h1 : n * (n - 1) = 2 * (t * (2 * t - 1)) := by
      rw [ht]
      cases t with
      | zero => rfl
      | succ t2 =>
        have hsub : 2 * (t2 + 1) - 1 = 2 * t2 + 1 := by omega
        rw [hsub]
        ring
    rw [h1, Nat.mul_div_cancel_left _ (by norm_num)]
    have h2 : n - 1 = 2 * t - 1 := by omega
    have h3 : n / 2 = t := by omega
    rw [h2, h3, Nat.mul_comm]
  have hmem : ({a, b} : Finset Nat) ∈ Finset.powersetCard 2 (Finset.range n) := by
    rw [Finset.mem_powersetCard]
    constructor
    · intro z hz
      simp only [Finset.mem_insert, Finset.mem_singleton] at hz
      rw [Finset.mem_range]
      rcases hz with hz | hz <;> omega
    · exact Finset.card_pair hab
  obtain ⟨si, hsi, hbeq⟩ := Finset.surj_on_of_inj_on_of_card_le
    (fun (si : Nat × Nat) (_ : si ∈ (Finset.range (n - 1)) ×ˢ (Finset.range (n / 2))) =>
      ({rrSlot (n - 1) si.1 si.2, rrSlot (n - 1) si.1 (n - 1 - si.2)} : Finset Nat))
    hf hinj hcard ({a, b}) hmem
  obtain ⟨hs, hi⟩ := Finset.mem_product.1 hsi
  rw [Finset.mem_range] at hs hi
  refine ⟨si.1, si.2, ⟨hs, hi⟩, ?_⟩
  exact finset_pair_cases (rrSlot_pair_ne n hn2 hne si.1 si.2 hi) hbeq.symm

theorem rrSlot_pair_exists_unique (n : Nat) (hn2 : 2 ≤ n) (hne : n % 2 = 0)
    (a b : Nat) (hab : ¬ a = b) (ha : a < n) (hb : b < n) :
    ∃! si : Nat × Nat, (si.1 < n - 1 ∧ si.2 < n / 2) ∧
      ((rrSlot (n - 1) si.1 si.2 = a ∧ rrSlot (n - 1) si.1 (n - 1 - si.2) = b) ∨
       (rrSlot (n - 1) si.1 si.2 = b ∧ rrSlot (n - 1) si.1 (n - 1 - si.2) = a)) := by
  obtain ⟨s, i, hbounds, hdisj⟩ := rrSlot_pair_exists n hn2 hne a b hab ha hb
  refine ⟨(s, i), ⟨hbounds, hdisj⟩, ?_⟩
  rintro ⟨s', i'⟩ ⟨⟨hs', hi'⟩, hdisj'⟩
  have hcomb : (rrSlot (n - 1) s' i' = rrSlot (n - 1) s i ∧
      rrSlot (n - 1) s' (n - 1 - i') = rrSlot (n - 1) s (n - 1 - i)) ∨
      (rrSlot (n - 1) s' i' = rrSlot (n - 1) s (n - 1 - i) ∧
      rrSlot (n - 1) s' (n - 1 - i') = rrSlot (n - 1) s i) := by
    rcases hdisj with ⟨e1, e2⟩ | ⟨e1, e2⟩ <;> rcases hdisj' with ⟨e3, e4⟩ | ⟨e3, e4⟩
    · exact Or.inl ⟨e3.trans e1.symm, e4.trans e2.symm⟩
    · exact Or.inr ⟨e3.trans e2.symm, e4.trans e1.symm⟩
    · exact Or.inr ⟨e3.trans e2.symm, e4.trans e1.symm⟩
    · exact Or.inl ⟨e3.trans e1.symm, e4.trans e2.symm⟩
  have := rrSlot_pair_inj n hn2 hne s' i' s i hs' hi' hbounds.1 hbounds.2 hcomb
  exact Prod.ext this.1 this.2

theorem rrRotated_getD (q : List (Option PlayerId)) (s j : Nat) (hj : j < q.length) :
    (rrRotated q s).getD j none = q.getD (rrSlot (q.length - 1) s j) none := by
  rcases q with _ | ⟨p0, tail⟩
  · simp at hj
  · rcases j with _ | j2
    · rfl
    · have hj2 : j2 < tail.length := by
        simp only [List.length_cons] at hj
        omega
      have hm : (p0 :: tail).length - 1 = tail.length := by simp
      rw [hm, rrRotated, List.getD_cons_succ, rotr_iterate, rrSlot, if_neg (by omega)]
      simp only [Nat.add_sub_cancel]
      rw [List.getD_cons_succ]
      have hrotlen : j2 < (tail.rotate (s * (tail.length - 1))).length := by
        rw [List.length_rotate]
        exact hj2
      have hmod : (j2 + s * (tail.length - 1)) % tail.length < tail.length :=
        Nat.mod_lt _ (by omega)
      rw [List.getD_eq_getElem _ _ hrotlen, List.getD_eq_getElem _ _ hmod,
        List.getElem_rotate]

theorem rrPairingAt_ids (rot : List (Option PlayerId)) (n r i : Nat) :
    ((rrPairingAt rot n r i).white_id = rot.getD i none ∧
     (rrPairingAt rot n r i).black_id = rot.getD (n - 1 - i) none) ∨
    ((rrPairingAt rot n r i).white_id = rot.getD (n - 1 - i) none ∧
     (rrPairingAt rot n r i).black_id = rot.getD i none) := by
  rcases hw : rot.getD i none with _ | x
  · right
    have he : rrPairingAt rot n r i =
        ⟨rot.getD (n - 1 - i) none, none, none, Result.WHITE_WIN⟩ := by
      rw [rrPairingAt, hw]
      simp
    rw [he]
    exact ⟨rfl, rfl⟩
  · rcases hb : rot.getD (n - 1 - i) none with _ | y
    · left
      have he : rrPairingAt rot n r i = ⟨some x, none, none, Result.WHITE_WIN⟩ := by
        rw [rrPairingAt, hw, hb]
        simp
      rw [he]
      exact ⟨rfl, rfl⟩
    · by_cases hpar : (i + r) % 2 = 0
      · right
        have he : rrPairingAt rot n r i = ⟨some y, some x, some 0, Result.ONGOING⟩ := by
          rw [rrPairingAt, hw, hb, if_neg (by simp), if_pos hpar]
        rw [he]
        exact ⟨rfl, rfl⟩
      · left
        have he : rrPairingAt rot n r i = ⟨some x, some y, some 0, Result.ONGOING⟩ := by
          rw [rrPairingAt, hw, hb, if_neg (by simp), if_neg hpar]
        rw [he]
        exact ⟨rfl, rfl⟩

theorem rrPairingAt_bye_ids (rot : List (Option PlayerId)) (n r i : Nat) (x : PlayerId)
    (h : (rot.getD i none = some x ∧ rot.getD (n - 1 - i) none = none) ∨
         (rot.getD i none = none ∧ rot.getD (n - 1 - i) none = some x)) :
    (rrPairingAt rot n r i).white_id = some x ∧ (rrPairingAt rot n r i).black_id = none := by
  rcases h with ⟨h1, h2⟩ | ⟨h1, h2⟩
  · have he : rrPairingAt rot n r i = ⟨some x, none, none, Result.WHITE_WIN⟩ := by
      rw [rrPairingAt, h1, h2]
      simp
    rw [he]
    exact ⟨rfl, rfl⟩
  · have he : rrPairingAt rot n r i = ⟨some x, none, none, Result.WHITE_WIN⟩ := by
      rw [rrPairingAt, h1, h2]
      simp
    rw [he]
    exact ⟨rfl, rfl⟩

theorem renumberBoards_map_ids (l : List Pairing) (k : Nat) :
    (renumberBoards l k).map (fun p => (p.white_id, p.black_id)) =
    l.map (fun p => (p.white_id, p.black_id)) := by
  induction l generalizing k with
  | nil => rfl
  | cons p rest ih =>
    rw [renumberBoards]
    by_cases hb : p.black_id.isSome
    · rw [if_pos hb, List.map_cons, List.map_cons, ih]
    · rw [if_neg hb, List.map_cons, List.map_cons, ih]

theorem exists_ids_renumberBoards (P : Option PlayerId × Option PlayerId → Prop)
    (l : List Pairing) (k : Nat) :
    (∃ p ∈ renumberBoards l k, P (p.white_id, p.black_id)) ↔
    ∃ p ∈ l, P (p.white_id, p.black_id) := by
  constructor
  · rintro ⟨p, hp, hPp⟩
    have hmem : (p.white_id, p.black_id) ∈
        (renumberBoards l k).map (fun p => (p.white_id, p.black_id)) :=
      List.mem_map_of_mem _ hp
    rw [renumberBoards_map_ids] at hmem
    obtain ⟨q, hq, hqe⟩ := List.mem_map.1 hmem
    refine ⟨q, hq, ?_⟩
    rw [hqe]
    exact hPp
  · rintro ⟨p, hp, hPp⟩
    have hmem : (p.white_id, p.black_id) ∈
        l.map (fun p => (p.white_id, p.black_id)) :=
      List.mem_map_of_mem _ hp
    rw [← renumberBoards_map_ids l k] at hmem
    obtain ⟨q, hq, hqe⟩ := List.mem_map.1 hmem
    refine ⟨q, hq, ?_⟩
    rw [hqe]
    exact hPp

theorem exists_mem_map_iff {α β : Type} (f : α → β) (l : List α) (Q : β → Prop) :
    (∃ b ∈ l.map f, Q b) ↔ ∃ a ∈ l, Q (f a) := by
  constructor
  · rintro ⟨b, hb, hQ⟩
    obtain ⟨a, ha, hab⟩ := List.mem_map.1 hb
    refine ⟨a, ha, ?_⟩
    rw [hab]
    exact hQ
  · rintro ⟨a, ha, hQ⟩
    exact ⟨f a, List.mem_map_of_mem f ha, hQ⟩

theorem rrPadded_replicate (ps : List PlayerId) :
    rrPadded ps = ps.map some ++ List.replicate (ps.length % 2) none := by
  rw [rrPadded]
  by_cases h : ps.length % 2 ≠ 0
  · rw [if_pos h]
    have h1 : ps.length % 2 = 1 := by omega
    rw [h1]
    rfl
  · rw [if_neg h]
    have h0 : ps.length % 2 = 0 := by omega
    rw [h0]
    rfl

theorem rrPadded_nodup (ps : List PlayerId) (hnd : ps.Nodup) : (rrPadded ps).Nodup := by
  rw [rrPadded_replicate]
  rcases hrep : ps.length % 2 with _ | k
  · simp only [List.replicate_zero, List.append_nil]
    exact hnd.map (fun a b => by simp)
  · have hk : k = 0 := by omega
    subst hk
    rw [List.nodup_append]
    refine ⟨hnd.map (fun a b => by simp), by simp, ?_⟩
    intro z hz hz2
    obtain ⟨w, _, hw⟩ := List.mem_map.1 hz
    have hzn : z = none := by simpa using hz2
    rw [hzn] at hw
    exact Option.noConfusion hw

theorem getD_inj_of_nodup (q : List (Option PlayerId)) (hnd : q.Nodup)
    (u v : Nat) (hu : u < q.length) (hv : v < q.length)
    (h : q.getD u none = q.getD v none) : u = v := by
  rw [List.getD_eq_getElem _ _ hu, List.getD_eq_getElem _ _ hv] at h
  exact (hnd.getElem_inj_iff).1 h

theorem rrSlot_lt (n s j : Nat) (hn2 : 2 ≤ n) : rrSlot (n - 1) s j < n := by
  rcases Nat.eq_zero_or_pos j with h0 | h0
  · rw [h0, rrSlot_zero]
    omega
  · have := (rrSlot_bounds (n - 1) s j (by omega) h0).2
    omega

theorem rrBoard_pair_iff (q : List (Option PlayerId)) (s i : Nat) (x y : PlayerId)
    (a b : Nat) (hnd : q.Nodup) (hn2 : 2 ≤ q.length) (hi : i < q.length / 2)
    (ha : a < q.length) (hb : b < q.length)
    (hqa : q.getD a none = some x) (hqb : q.getD b none = some y) :
    (((rrPairingAt (rrRotated q s) q.length s i).white_id = some x ∧
      (rrPairingAt (rrRotated q s) q.length s i).black_id = some y) ∨
     ((rrPairingAt (rrRotated q s) q.length s i).white_id = some y ∧
      (rrPairingAt (rrRotated q s) q.length s i).black_id = some x)) ↔
    ((rrSlot (q.length - 1) s i = a ∧ rrSlot (q.length - 1) s (q.length - 1 - i) = b) ∨
     (rrSlot (q.length - 1) s i = b ∧ rrSlot (q.length - 1) s (q.length - 1 - i) = a)) := by
  have hrot1 : (rrRotated q s).getD i none = q.getD (rrSlot (q.length - 1) s i) none :=
    rrRotated_getD q s i (by omega)
  have hrot2 : (rrRotated q s).getD (q.length - 1 - i) none =
      q.getD (rrSlot (q.length - 1) s (q.length - 1 - i)) none :=
    rrRotated_getD q s (q.length - 1 - i) (by omega)
  have hlt1 : rrSlot (q.length - 1) s i < q.length := rrSlot_lt q.length s i hn2
  have hlt2 : rrSlot (q.length - 1) s (q.length - 1 - i) < q.length :=
    rrSlot_lt q.length s (q.length - 1 - i) hn2
  have hids := rrPairingAt_ids (rrRotated q s) q.length s i
  constructor
  · rintro (⟨hw, hbl⟩ | ⟨hw, hbl⟩) <;> rcases hids with ⟨hw2, hbl2⟩ | ⟨hw2, hbl2⟩
    · refine Or.inl ⟨?_, ?_⟩
      · exact getD_inj_of_nodup q hnd _ a hlt1 ha (by rw [← hrot1, ← hw2, hw, hqa])
      · exact getD_inj_of_nodup q hnd _ b hlt2 hb (by rw [← hrot2, ← hbl2, hbl, hqb])
    · refine Or.inr ⟨?_, ?_⟩
      · exact getD_inj_of_nodup q hnd _ b hlt1 hb (by rw [← hrot1, ← hbl2, hbl, hqb])
      · exact getD_inj_of_nodup q hnd _ a hlt2 ha (by rw [← hrot2, ← hw2, hw, hqa])
    · refine Or.inr ⟨?_, ?_⟩
      · exact getD_inj_of_nodup q hnd _ b hlt1 hb (by rw [← hrot1, ← hw2, hw, hqb])
      · exact getD_inj_of_nodup q hnd _ a hlt2 ha (by rw [← hrot2, ← hbl2, hbl, hqa])
    · refine Or.inl ⟨?_, ?_⟩
      · exact getD_inj_of_nodup q hnd _ a hlt1 ha (by rw [← hrot1, ← hbl2, hbl, hqa])
      · exact getD_inj_of_nodup q hnd _ b hlt2 hb (by rw [← hrot2, ← hw2, hw, hqb])
  · rintro (⟨h1, h2⟩ | ⟨h1, h2⟩)
    · have hv1 : (rrRotated q s).getD i none = some x := by
        rw [hrot1, h1]
        exact hqa
      have hv2 : (rrRotated q s).getD (q.length - 1 - i) none = some y := by
        rw [hrot2, h2]
        exact hqb
      rcases hids with ⟨hw2, hbl2⟩ | ⟨hw2, hbl2⟩
      · exact Or.inl ⟨hw2.trans hv1, hbl2.trans hv2⟩
      · exact Or.inr ⟨hw2.trans hv2, hbl2.trans hv1⟩
    · have hv1 : (rrRotated q s).getD i none = some y := by
        rw [hrot1, h1]
        exact hqb
      have hv2 : (rrRotated q s).getD (q.length - 1 - i) none = some x := by
        rw [hrot2, h2]
        exact hqa
      rcases hids with ⟨hw2, hbl2⟩ | ⟨hw2, hbl2⟩
      · exact Or.inr ⟨hw2.trans hv1, hbl2.trans hv2⟩
      · exact Or.inl ⟨hw2.trans hv2, hbl2.trans hv1⟩

theorem rrBoard_bye_iff (q : List (Option PlayerId)) (s i : Nat) (x : PlayerId) (a : Nat)
    (hnd : q.Nodup) (hn2 : 2 ≤ q.length) (hi : i < q.length / 2) (ha : a < q.length)
    (hqa : q.getD a none = some x) (hsent : q.getD (q.length - 1) none = none) :
    ((rrPairingAt (rrRotated q s) q.length s i).white_id = some x ∧
     (rrPairingAt (rrRotated q s) q.length s i).black_id = none) ↔
    ((rrSlot (q.length - 1) s i = a ∧
      rrSlot (q.length - 1) s (q.length - 1 - i) = q.length - 1) ∨
     (rrSlot (q.length - 1) s i = q.length - 1 ∧
      rrSlot (q.length - 1) s (q.length - 1 - i) = a)) := by
  have hrot1 : (rrRotated q s).getD i none = q.getD (rrSlot (q.length - 1) s i) none :=
    rrRotated_getD q s i (by omega)
  have hrot2 : (rrRotated q s).getD (q.length - 1 - i) none =
      q.getD (rrSlot (q.length - 1) s (q.length - 1 - i)) none :=
    rrRotated_getD q s (q.length - 1 - i) (by omega)
  have hlt1 : rrSlot (q.length - 1) s i < q.length := rrSlot_lt q.length s i hn2
  have hlt2 : rrSlot (q.length - 1) s (q.length - 1 - i) < q.length :=
    rrSlot_lt q.length s (q.length - 1 - i) hn2
  have hsl : q.length - 1 < q.length := by omega
  constructor
  · rintro ⟨hw, hbl⟩
    rcases rrPairingAt_ids (rrRotated q s) q.length s i with ⟨hw2, hbl2⟩ | ⟨hw2, hbl2⟩
    · refine Or.inl ⟨?_, ?_⟩
      · exact getD_inj_of_nodup q hnd _ a hlt1 ha (by rw [← hrot1, ← hw2, hw, hqa])
      · exact getD_inj_of_nodup q hnd _ (q.length - 1) hlt2 hsl
          (by rw [← hrot2, ← hbl2, hbl, hsent])
    · refine Or.inr ⟨?_, ?_⟩
      · exact getD_inj_of_nodup q hnd _ (q.length - 1) hlt1 hsl
          (by rw [← hrot1, ← hbl2, hbl, hsent])
      · exact getD_inj_of_nodup q hnd _ a hlt2 ha (by rw [← hrot2, ← hw2, hw, hqa])
  · rintro (⟨h1, h2⟩ | ⟨h1, h2⟩)
    · refine rrPairingAt_bye_ids (rrRotated q s) q.length s i x (Or.inl ⟨?_, ?_⟩)
      · rw [hrot1, h1]
        exact hqa
      · rw [hrot2, h2]
        exact hsent
    · refine rrPairingAt_bye_ids (rrRotated q s) q.length s i x (Or.inr ⟨?_, ?_⟩)
      · rw [hrot1, h1]
        exact hsent
      · rw [hrot2, h2]
        exact hqa

theorem pairedIn_rrGenerate_iff (t : Tournament) (r : Nat) (now : String)
    (x y : PlayerId) (a b : Nat) (hnd : (rrPadded t.players).Nodup)
    (ha : a < (rrPadded t.players).length) (hb : b < (rrPadded t.players).length)
    (hqa : (rrPadded t.players).getD a none = some x)
    (hqb : (rrPadded t.players).getD b none = some y) :
    pairedIn x y (rrGenerate t r now) ↔
    ∃ i < (rrPadded t.players).length / 2,
      ((rrSlot ((rrPadded t.players).length - 1) (r - 1) i = a ∧
        rrSlot ((rrPadded t.players).length - 1) (r - 1)
          ((rrPadded t.players).length - 1 - i) = b) ∨
       (rrSlot ((rrPadded t.players).length - 1) (r - 1) i = b ∧
        rrSlot ((rrPadded t.players).length - 1) (r - 1)
          ((rrPadded t.players).length - 1 - i) = a)) := by
  have hn2 : 2 ≤ (rrPadded t.players).length := by
    have := rrPadded_length_even t.players
    omega
  have h1 : pairedIn x y (rrGenerate t r now) ↔
      ∃ p ∈ renumberBoards ((List.range ((rrPadded t.players).length / 2)).map
          (rrPairingAt (rrRotated (rrPadded t.players) (r - 1))
            (rrPadded t.players).length (r - 1))) 1,
        ((fun pr : Option PlayerId × Option PlayerId =>
            (pr.1 = some x ∧ pr.2 = some y) ∨ (pr.1 = some y ∧ pr.2 = some x))
          (p.white_id, p.black_id)) := Iff.rfl
  have h2 := exists_ids_renumberBoards
    (fun pr : Option PlayerId × Option PlayerId =>
      (pr.1 = some x ∧ pr.2 = some y) ∨ (pr.1 = some y ∧ pr.2 = some x))
    ((List.range ((rrPadded t.players).length / 2)).map
      (rrPairingAt (rrRotated (rrPadded t.players) (r - 1))
        (rrPadded t.players).length (r - 1))) 1
  have h3 := exists_mem_map_iff
    (rrPairingAt (rrRotated (rrPadded t.players) (r - 1))
      (rrPadded t.players).length (r - 1))
    (List.range ((rrPadded t.players).length / 2))
    (fun p : Pairing =>
      (p.white_id = some x ∧ p.black_id = some y) ∨
      (p.white_id = some y ∧ p.black_id = some x))
  refine h1.trans (h2.trans (h3.trans ?_))
  simp only [List.mem_range]
  refine exists_congr (fun i => and_congr_right (fun hi => ?_))
  exact rrBoard_pair_iff (rrPadded t.players) (r - 1) i x y a b hnd hn2 hi ha hb hqa hqb

theorem byeFor_rrGenerate_iff (t : Tournament) (r : Nat) (now : String)
    (x : PlayerId) (a : Nat) (hnd : (rrPadded t.players).Nodup)
    (ha : a < (rrPadded t.players).length)
    (hqa : (rrPadded t.players).getD a none = some x)
    (hsent : (rrPadded t.players).getD ((rrPadded t.players).length - 1) none = none) :
    byeFor x (rrGenerate t r now) ↔
    ∃ i < (rrPadded t.players).length / 2,
      ((rrSlot ((rrPadded t.players).length - 1) (r - 1) i = a ∧
        rrSlot ((rrPadded t.players).length - 1) (r - 1)
          ((rrPadded t.players).length - 1 - i) = (rrPadded t.players).length - 1) ∨
       (rrSlot ((rrPadded t.players).length - 1) (r - 1) i =
          (rrPadded t.players).length - 1 ∧
        rrSlot ((rrPadded t.players).length - 1) (r - 1)
          ((rrPadded t.players).length - 1 - i) = a)) := by
  have hn2 : 2 ≤ (rrPadded t.players).length := by
    have := rrPadded_length_even t.players
    omega
  have h1 : byeFor x (rrGenerate t r now) ↔
      ∃ p ∈ renumberBoards ((List.range ((rrPadded t.players).length / 2)).map
          (rrPairingAt (rrRotated (rrPadded t.players) (r - 1))
            (rrPadded t.players).length (r - 1))) 1,
        ((fun pr : Option PlayerId × Option PlayerId =>
            pr.1 = some x ∧ pr.2 = none)
          (p.white_id, p.black_id)) := Iff.rfl
  have h2 := exists_ids_renumberBoards
    (fun pr : Option PlayerId × Option PlayerId => pr.1 = some x ∧ pr.2 = none)
    ((List.range ((rrPadded t.players).length / 2)).map
      (rrPairingAt (rrRotated (rrPadded t.players) (r - 1))
        (rrPadded t.players).length (r - 1))) 1
  have h3 := exists_mem_map_iff
    (rrPairingAt (rrRotated (rrPadded t.players) (r - 1))
      (rrPadded t.players).length (r - 1))
    (List.range ((rrPadded t.players).length / 2))
    (fun p : Pairing => p.white_id = some x ∧ p.black_id = none)
  refine h1.trans (h2.trans (h3.trans ?_))
  simp only [List.mem_range]
  refine exists_congr (fun i => and_congr_right (fun hi => ?_))
  exact rrBoard_bye_iff (rrPadded t.players) (r - 1) i x a hnd hn2 hi ha hqa hsent

/-- **C5**.  For a duplicate-free player list the Round Robin schedule meets
every unordered pair of distinct players in a real game in exactly one round
of `1..N-1` (even `N`) resp. `1..N` (odd `N`), and for odd `N` gives every
player exactly one bye in that range. -/
theorem claim5_round_robin_schedule (t : Tournament) (now : String)
    (hnd : t.players.Nodup) :
    (∀ x ∈ t.players, ∀ y ∈ t.players, ¬ x = y →
      ∃! r : Nat, (1 ≤ r ∧ r ≤ (if t.players.length % 2 = 0 then t.players.length - 1
          else t.players.length)) ∧ pairedIn x y (rrGenerate t r now)) ∧
    (t.players.length % 2 = 1 → ∀ x ∈ t.players,
      ∃! r : Nat, (1 ≤ r ∧ r ≤ t.players.length) ∧ byeFor x (rrGenerate t r now)) := by
  have hqnd := rrPadded_nodup t.players hnd
  have hlen := rrPadded_length t.players
  have heven := rrPadded_length_even t.players
  constructor
  · intro x hx y hy hxy
    have hN1 : 0 < t.players.length := List.length_pos.2 (List.ne_nil_of_mem hx)
    have hn2 : 2 ≤ (rrPadded t.players).length := by omega
    have hRR : (if t.players.length % 2 = 0 then t.players.length - 1
        else t.players.length) = (rrPadded t.players).length - 1 := by
      by_cases h : t.players.length % 2 = 0
      · rw [if_pos h]
        omega
      · rw [if_neg h]
        omega
    obtain ⟨a, haN, hpa⟩ := List.mem_iff_getElem.1 hx
    obtain ⟨b, hbN, hpb⟩ := List.mem_iff_getElem.1 hy
    have hqa : (rrPadded t.players).getD a none = some x := by
      rw [rrPadded_replicate, getD_map_some_append_replicate, dif_pos haN]
      simp only [List.get_eq_getElem]
      rw [hpa]
    have hqb : (rrPadded t.players).getD b none = some y := by
      rw [rrPadded_replicate, getD_map_some_append_replicate, dif_pos hbN]
      simp only [List.get_eq_getElem]
      rw [hpb]
    have hab : ¬ a = b := by
      intro h
      subst h
      rw [hpa] at hpb
      exact hxy hpb
    have haq : a < (rrPadded t.players).length := by omega
    have hbq : b < (rrPadded t.players).length := by omega
    obtain ⟨⟨s, i⟩, ⟨⟨hsb, hib⟩, hdisj⟩, huniq⟩ := rrSlot_pair_exists_unique
      (rrPadded t.players).length hn2 heven a b hab haq hbq
    refine ⟨s + 1, ⟨⟨by omega, by rw [hRR]; omega⟩, ?_⟩, ?_⟩
    · rw [pairedIn_rrGenerate_iff t (s + 1) now x y a b hqnd haq hbq hqa hqb]
      refine ⟨i, hib, ?_⟩
      have hs1 : s + 1 - 1 = s := by omega
      rw [hs1]
      exact hdisj
    · rintro r' ⟨⟨hr1, hr2⟩, hpaired⟩
      rw [pairedIn_rrGenerate_iff t r' now x y a b hqnd haq hbq hqa hqb] at hpaired
      obtain ⟨i', hi', hdisj'⟩ := hpaired
      have hs' : r' - 1 < (rrPadded t.players).length - 1 := by
        rw [hRR] at hr2
        omega
      have hpair := huniq (r' - 1, i') ⟨⟨hs', hi'⟩, hdisj'⟩
      have h1 : r' - 1 = s := congrArg Prod.fst hpair
      omega
  · intro hodd x hx
    have hN1 : 0 < t.players.length := List.length_pos.2 (List.ne_nil_of_mem hx)
    have hn2 : 2 ≤ (rrPadded t.players).length := by omega
    have hnN : (rrPadded t.players).length = t.players.length + 1 := by omega
    obtain ⟨a, haN, hpa⟩ := List.mem_iff_getElem.1 hx
    have hqa : (rrPadded t.players).getD a none = some x := by
      rw [rrPadded_replicate, getD_map_some_append_replicate, dif_pos haN]
      simp only [List.get_eq_getElem]
      rw [hpa]
    have hsent : (rrPadded t.players).getD ((rrPadded t.players).length - 1) none = none := by
      rw [rrPadded_replicate, getD_map_some_append_replicate]
      rw [dif_neg (by simp [hodd])]
    have hab : ¬ a = (rrPadded t.players).length - 1 := by omega
    obtain ⟨⟨s, i⟩, ⟨⟨hsb, hib⟩, hdisj⟩, huniq⟩ := rrSlot_pair_exists_unique
      (rrPadded t.players).length hn2 heven a ((rrPadded t.players).length - 1)
      hab (by omega) (by omega)
    refine ⟨s + 1, ⟨⟨by omega, by omega⟩, ?_⟩, ?_⟩
    · rw [byeFor_rrGenerate_iff t (s + 1) now x a hqnd (by omega) hqa hsent]
      refine ⟨i, hib, ?_⟩
      have hs1 : s + 1 - 1 = s := by omega
      rw [hs1]
      exact hdisj
    · rintro r' ⟨⟨hr1, hr2⟩, hbye⟩
      rw [byeFor_rrGenerate_iff t r' now x a hqnd (by omega) hqa hsent] at hbye
      obtain ⟨i', hi', hdisj'⟩ := hbye
      have hs' : r' - 1 < (rrPadded t.players).length - 1 := by omega
      have hpair := huniq (r' - 1, i') ⟨⟨hs', hi'⟩, hdisj'⟩
      have h1 : r' - 1 = s := congrArg Prod.fst hpair
      omega

/-- **C5** (witness).  The schedule statement instantiated at the 3-player
list `[1, 2, 3]` (odd case: three rounds, one bye each). -/
theorem claim5_witness :
    (mkTournament TournamentType.ROUND_ROBIN [1, 2, 3] []).players.Nodup ∧
    ((∀ x ∈ (mkTournament TournamentType.ROUND_ROBIN [1, 2, 3] []).players,
      ∀ y ∈ (mkTournament TournamentType.ROUND_ROBIN [1, 2, 3] []).players, ¬ x = y →
      ∃! r : Nat, (1 ≤ r ∧ r ≤
          (if (mkTournament TournamentType.ROUND_ROBIN [1, 2, 3] []).players.length % 2 = 0
            then (mkTournament TournamentType.ROUND_ROBIN [1, 2, 3] []).players.length - 1
            else (mkTournament TournamentType.ROUND_ROBIN [1, 2, 3] []).players.length)) ∧
        pairedIn x y (rrGenerate (mkTournament TournamentType.ROUND_ROBIN [1, 2, 3] []) r "now")) ∧
    ((mkTournament TournamentType.ROUND_ROBIN [1, 2, 3] []).players.length % 2 = 1 →
      ∀ x ∈ (mkTournament TournamentType.ROUND_ROBIN [1, 2, 3] []).players,
      ∃! r : Nat, (1 ≤ r ∧
          r ≤ (mkTournament TournamentType.ROUND_ROBIN [1, 2, 3] []).players.length) ∧
        byeFor x (rrGenerate (mkTournament TournamentType.ROUND_ROBIN [1, 2, 3] []) r "now"))) :=
  ⟨by decide, claim5_round_robin_schedule
    (mkTournament TournamentType.ROUND_ROBIN [1, 2, 3] []) "now" (by decide)⟩
